import Mathlib

/-!
# Sparse polynomial class: a shallow embedding of `class-sparse-polynomial.cpp`

The C++ class `Polynomial<T>` keeps its coefficients in a `std::map<size_t, T>`.
The map is embedded as its list of entries in ascending key order (the order a
`std::map` iterates in), together with the proof that the keys are strictly
ascending.  Every member function of the class is translated statement by
statement:

* `for (int i = 0; i <= p.Degree(); ++i)` runs over `List.range (p.Degree + 1).toNat`;
* `coef[k] = v` is `Polynomial.set`, `coef[k] += v` is `Polynomial.addAt`
  (`std::map::operator[]` first creates the entry with `T()` when it is absent);
* `T()`, `T(0)` and the literal `0` are the zero of `T`, `T(1)` is its one;
* `int` values are integers and exponents are taken to fit in an `int`, as
  `Degree()` assumes; the conversion of an `int` to `size_t` (an index of
  `operator[]` or of a `std::vector`) is `toSizeT`, which wraps a negative
  value around modulo `2 ^ 64`;
* the `while` loops of `operator/` and `operator,` take the number of
  iterations they may run as an explicit bound and report when it is used up;
  an access to a `std::vector` past its end is reported as `Outcome.outOfRange`.

The scalar operations of `T` are whatever instances the type supplies, so the
same definitions are run over a field and over the integers.
-/

open scoped Polynomial

namespace SparsePoly

/-! ## The coefficient map -/

/-- Lookup of key `k` in the entries of a `std::map<size_t, T>` (`map::find`). -/
def find {T : Type} (k : Nat) : List (Nat × T) → Option T
  | [] => none
  | (k', v) :: rest => if k = k' then some v else find k rest

/-- Store `v` under key `k` in the entries of a `std::map<size_t, T>`, keeping
the key order: overwrite the entry when the key is present, insert it at its
place otherwise (`coef[k] = v`). -/
def assign {T : Type} (k : Nat) (v : T) : List (Nat × T) → List (Nat × T)
  | [] => [(k, v)]
  | (k', v') :: rest =>
    if k < k' then (k, v) :: (k', v') :: rest
    else if k = k' then (k, v) :: rest
    else (k', v') :: assign k v rest

theorem assign_keys_below {T : Type} (k : Nat) (v : T) (b : Nat) :
    ∀ (l : List (Nat × T)), b < k → (∀ e ∈ l, b < e.1) → ∀ e ∈ assign k v l, b < e.1 := by
  intro l
  induction l with
  | nil =>
    intro hb _ e he
    simp only [assign, List.mem_singleton] at he
    subst he
    exact hb
  | cons hd tl ih =>
    intro hb hl e he
    obtain ⟨k', v'⟩ := hd
    simp only [assign] at he
    split_ifs at he with h1 h2
    · rcases List.mem_cons.1 he with h | h
      · subst h; exact hb
      · exact hl e h
    · rcases List.mem_cons.1 he with h | h
      · subst h; exact hb
      · exact hl e (List.mem_cons_of_mem _ h)
    · rcases List.mem_cons.1 he with h | h
      · subst h; exact hl _ (List.mem_cons_self _ _)
      · exact ih hb (fun e he => hl e (List.mem_cons_of_mem _ he)) e h

theorem assign_ordered {T : Type} (k : Nat) (v : T) :
    ∀ (l : List (Nat × T)), l.Pairwise (fun p q => p.1 < q.1) →
      (assign k v l).Pairwise (fun p q => p.1 < q.1) := by
  intro l
  induction l with
  | nil => intro _; simp [assign]
  | cons hd tl ih =>
    intro hl
    obtain ⟨k', v'⟩ := hd
    have hl' := List.pairwise_cons.1 hl
    simp only [assign]
    split_ifs with h1 h2
    · refine List.pairwise_cons.2 ⟨?_, hl⟩
      intro e he
      rcases List.mem_cons.1 he with h | h
      · subst h; exact h1
      · exact lt_trans h1 (hl'.1 e h)
    · subst h2
      exact List.pairwise_cons.2 ⟨fun e he => hl'.1 e he, hl'.2⟩
    · refine List.pairwise_cons.2 ⟨?_, ih hl'.2⟩
      have hk : k' < k := by omega
      exact assign_keys_below k v k' tl hk hl'.1

/-- The class `Polynomial<T>`: its only data member is `std::map<size_t, T> coef`. -/
structure Polynomial (T : Type) where
  /-- The entries of the map, in ascending key order. -/
  coef : List (Nat × T)
  /-- A `std::map` holds each key once and iterates in ascending key order. -/
  ordered : coef.Pairwise (fun p q => p.1 < q.1)
deriving DecidableEq

/-- Conversion of an `int` to `size_t` (64 bits): a value that is not negative
is kept, a negative one wraps around modulo `2 ^ 64`. -/
def toSizeT (i : Int) : Nat := if i < 0 then (i + 2 ^ 64).toNat else i.toNat

/-- What a bounded run of a loop yields: the value computed, or the bound on the
number of iterations was used up, or a `std::vector` was indexed past its end. -/
inductive Outcome (α : Type) where
  | done (a : α)
  | outOfFuel
  | outOfRange
deriving DecidableEq

namespace Polynomial

/-- The default-constructed member `coef`: an empty map. -/
def empty {T : Type} : Polynomial T := ⟨[], List.Pairwise.nil⟩

/-- The statement `coef[k] = v`. -/
def set {T : Type} (p : Polynomial T) (k : Nat) (v : T) : Polynomial T :=
  ⟨assign k v p.coef, assign_ordered k v p.coef p.ordered⟩

/-- `Delete_Zeros`: erase every entry whose coefficient is zero. -/
def Delete_Zeros {T : Type} [Zero T] [DecidableEq T] (p : Polynomial T) : Polynomial T :=
  ⟨p.coef.filter (fun e => e.2 ≠ 0), p.ordered.filter _⟩

/-- The loop `for (auto elem : v) coef[deg++] = elem;` started at exponent `deg`. -/
def fill {T : Type} : Nat → List T → Polynomial T → Polynomial T
  | _, [], p => p
  | deg, elem :: rest, p => fill (deg + 1) rest (p.set deg elem)

/-- Constructor `Polynomial(const std::vector<T>& v)`. -/
def ofVector {T : Type} [Zero T] [DecidableEq T] (v : List T) : Polynomial T :=
  Delete_Zeros (fill 0 v empty)

/-- Constructor `Polynomial(T c = T())`. -/
def ofScalar {T : Type} [Zero T] [DecidableEq T] (c : T) : Polynomial T :=
  if c ≠ 0 then empty.set 0 c else empty

/-- Constructor `Polynomial(Iter first, Iter last)`; the argument is the
sequence of values the iterator range `[first, last)` yields. -/
def ofIter {T : Type} [Zero T] [DecidableEq T] (range : List T) : Polynomial T :=
  Delete_Zeros (fill 0 range empty)

/-- `Degree()`: the largest key of the map, or `-1` for the empty map. -/
def Degree {T : Type} (p : Polynomial T) : Int :=
  match p.coef.getLast? with
  | some e => (e.1 : Int)
  | none => -1

/-- `operator[]`: the coefficient stored for `degree`, or `T()` when the
map has no such key. -/
def get {T : Type} [Zero T] (p : Polynomial T) (degree : Nat) : T :=
  match find degree p.coef with
  | some v => v
  | none => 0

/-- `operator==`: comparison of the two maps. -/
def eq {T : Type} [DecidableEq T] (self other : Polynomial T) : Bool :=
  decide (self.coef = other.coef)

/-- `operator!=`: comparison of the two maps. -/
def ne {T : Type} [DecidableEq T] (self other : Polynomial T) : Bool :=
  decide (self.coef ≠ other.coef)

/-- The statement `coef[k] += v` (`operator[]` of the map creates the entry
with `T()` when the key is absent). -/
def addAt {T : Type} [Zero T] [Add T] (p : Polynomial T) (k : Nat) (v : T) : Polynomial T :=
  p.set k (p.get k + v)

/-- The statement `coef[k] -= v`. -/
def subAt {T : Type} [Zero T] [Sub T] (p : Polynomial T) (k : Nat) (v : T) : Polynomial T :=
  p.set k (p.get k - v)

/-- `operator+=`. -/
def addAssign {T : Type} [Zero T] [Add T] [DecidableEq T]
    (self other : Polynomial T) : Polynomial T :=
  Delete_Zeros
    ((List.range (other.Degree + 1).toNat).foldl (fun acc i => acc.addAt i (other.get i)) self)

/-- `operator-=`. -/
def subAssign {T : Type} [Zero T] [Sub T] [DecidableEq T]
    (self other : Polynomial T) : Polynomial T :=
  Delete_Zeros
    ((List.range (other.Degree + 1).toNat).foldl (fun acc i => acc.subAt i (other.get i)) self)

/-- `operator+`: copy the receiver, then `+=`. -/
def add {T : Type} [Zero T] [Add T] [DecidableEq T]
    (self other : Polynomial T) : Polynomial T :=
  self.addAssign other

/-- `operator-`: copy the receiver, then `-=`. -/
def sub {T : Type} [Zero T] [Sub T] [DecidableEq T]
    (self other : Polynomial T) : Polynomial T :=
  self.subAssign other

/-- `operator*`: the double loop accumulating `(*this)[i] * other[j]` into
`res.coef[i + j]`, then `Delete_Zeros`. -/
def mul {T : Type} [Zero T] [Add T] [Mul T] [DecidableEq T]
    (self other : Polynomial T) : Polynomial T :=
  Delete_Zeros
    ((List.range (self.Degree + 1).toNat).foldl
      (fun res i =>
        (List.range (other.Degree + 1).toNat).foldl
          (fun res j => res.addAt (i + j) (self.get i * other.get j)) res)
      empty)

/-- `operator*=`. -/
def mulAssign {T : Type} [Zero T] [Add T] [Mul T] [DecidableEq T]
    (self other : Polynomial T) : Polynomial T :=
  self.mul other

/-- The loop of `operator()`: `n` iterations are left, the next one is for
`i = n - 1`, and `ans` is the value accumulated so far. -/
def horner {T : Type} [Zero T] [Add T] [Mul T] (self : Polynomial T) (value : T) : Nat → T → T
  | 0, ans => ans
  | n + 1, ans => horner self value n (self.get n + ans * value)

/-- `operator()`: the value of the polynomial at `value`, by Horner's method. -/
def eval {T : Type} [Zero T] [Add T] [Mul T] (self : Polynomial T) (value : T) : T :=
  horner self value (self.Degree + 1).toNat 0

/-- `operator&`: composition. -/
def compose {T : Type} [Zero T] [Add T] [Mul T] [DecidableEq T]
    (self other : Polynomial T) : Polynomial T :=
  (List.range (self.Degree + 1).toNat).foldl
    (fun composition i =>
      if self.get i ≠ 0 then
        composition.addAssign ((fun tmp => tmp.mulAssign other)^[i] (ofScalar (self.get i)))
      else composition)
    empty

/-- The local variables of `operator/` that the loop changes. -/
structure DivState (T : Type) where
  /-- The polynomial `first`, what remains of the dividend. -/
  first : Polynomial T
  /-- The vector `result` of quotient coefficients. -/
  result : List T
  /-- The variable `fd`, the degree of `first`. -/
  fd : Int
deriving DecidableEq

/-- The scalar `t` of one iteration of the loop of `operator/`. -/
def divT {T : Type} [Zero T] [Div T] (other : Polynomial T) (s : DivState T) : T :=
  s.first.get (toSizeT s.fd) / other.get (toSizeT other.Degree)

/-- The vector `tmp` of one iteration of the loop of `operator/`:
`fd - other.Degree()` times `T()`, then `t`. -/
def divTmp {T : Type} [Zero T] [Div T] (other : Polynomial T) (s : DivState T) : List T :=
  List.replicate (s.fd - other.Degree).toNat 0 ++ [divT other s]

/-- The value of `first` after `first -= other * p` in the loop of `operator/`. -/
def divFirst {T : Type} [Zero T] [Add T] [Sub T] [Mul T] [Div T] [DecidableEq T]
    (other : Polynomial T) (s : DivState T) : Polynomial T :=
  s.first.subAssign (other.mul (ofVector (divTmp other s)))

/-- The index of `result[fd - other.Degree()] += t` in the loop of `operator/`. -/
def divIndex {T : Type} (other : Polynomial T) (s : DivState T) : Nat :=
  toSizeT (s.fd - other.Degree)

/-- One iteration of the loop of `operator/`; `none` when `result` is
indexed past its end. -/
def divStep {T : Type} [Zero T] [Add T] [Sub T] [Mul T] [Div T] [DecidableEq T]
    (other : Polynomial T) (s : DivState T) : Option (DivState T) :=
  if divIndex other s < s.result.length then
    some
      { first := divFirst other s
        result := s.result.set (divIndex other s)
          (s.result.getD (divIndex other s) 0 + divT other s)
        fd := (divFirst other s).Degree }
  else none

/-- The loop `while (fd >= other.Degree())` of `operator/`, run for at most
`fuel` iterations. -/
def divLoop {T : Type} [Zero T] [Add T] [Sub T] [Mul T] [Div T] [DecidableEq T]
    (other : Polynomial T) : Nat → DivState T → Outcome (List T)
  | fuel, s =>
    if s.fd ≥ other.Degree then
      match fuel with
      | 0 => Outcome.outOfFuel
      | fuel + 1 =>
        match divStep other s with
        | some s' => divLoop other fuel s'
        | none => Outcome.outOfRange
    else Outcome.done s.result

/-- The state in which `operator/` enters its loop. -/
def divInit {T : Type} [Zero T] (self : Polynomial T) : DivState T :=
  { first := self
    result := List.replicate (toSizeT (self.Degree + 1)) 0
    fd := self.Degree }

/-- `operator/`, its loop run for at most `fuel` iterations. -/
def div {T : Type} [Zero T] [Add T] [Sub T] [Mul T] [Div T] [DecidableEq T]
    (fuel : Nat) (self other : Polynomial T) : Outcome (Polynomial T) :=
  match divLoop other fuel (divInit self) with
  | Outcome.done result => Outcome.done (ofVector result)
  | Outcome.outOfFuel => Outcome.outOfFuel
  | Outcome.outOfRange => Outcome.outOfRange

/-- `operator%`: `*this - (*this / other) * other`. -/
def mod {T : Type} [Zero T] [Add T] [Sub T] [Mul T] [Div T] [DecidableEq T]
    (fuel : Nat) (self other : Polynomial T) : Outcome (Polynomial T) :=
  match div fuel self other with
  | Outcome.done q => Outcome.done (self.sub (q.mul other))
  | Outcome.outOfFuel => Outcome.outOfFuel
  | Outcome.outOfRange => Outcome.outOfRange

/-- The loop `while (second.Degree() > 0)` of `operator,`, run for at most
`fuel` iterations, each division inside it run with the bound `inner`. -/
def gcdLoop {T : Type} [Zero T] [Add T] [Sub T] [Mul T] [Div T] [DecidableEq T]
    (inner : Nat) : Nat → Polynomial T → Polynomial T → Outcome (Polynomial T × Polynomial T)
  | fuel, first, second =>
    if second.Degree > 0 then
      match fuel with
      | 0 => Outcome.outOfFuel
      | fuel + 1 =>
        match mod inner first second with
        | Outcome.done r => gcdLoop inner fuel second r
        | Outcome.outOfFuel => Outcome.outOfFuel
        | Outcome.outOfRange => Outcome.outOfRange
    else Outcome.done (first, second)

/-- `operator,`: the greatest common divisor, every loop run for at most
`fuel` iterations. -/
def gcd {T : Type} [Zero T] [One T] [Add T] [Sub T] [Mul T] [Div T] [DecidableEq T]
    (fuel : Nat) (self other : Polynomial T) : Outcome (Polynomial T) :=
  let start := if self.Degree < other.Degree then (other, self) else (self, other)
  match gcdLoop fuel fuel start.1 start.2 with
  | Outcome.done (first, second) =>
    if second.ne (ofScalar 0) then Outcome.done (ofScalar 1)
    else div fuel first (ofScalar (first.get (toSizeT first.Degree)))
  | Outcome.outOfFuel => Outcome.outOfFuel
  | Outcome.outOfRange => Outcome.outOfRange

/-- What one iteration of the loop of `operator<<` writes, for the exponent
`i` and the degree `deg` of the polynomial. -/
def renderTerm {T : Type} [Zero T] [One T] [Neg T] [LT T]
    [DecidableRel (fun a b : T => a < b)] [DecidableEq T] [ToString T]
    (pol : Polynomial T) (deg : Int) (i : Nat) : String :=
  if pol.get i ≠ 0 then
    if pol.get i ≠ 1 ∧ pol.get i ≠ -1 then
      (if (i : Int) ≠ deg ∧ 0 < pol.get i then "+" else "") ++
        toString (pol.get i) ++
        (if i > 1 then "*x^" ++ toString i else "") ++
        (if i = 1 then "*x" else "")
    else if pol.get i = -1 then
      (if i > 1 then "-x^" ++ toString i else "") ++
        (if i = 1 then "-x" else "") ++
        (if i = 0 then toString (pol.get i) else "")
    else if pol.get i = 1 then
      (if (i : Int) ≠ deg then "+" else "") ++
        (if i > 1 then "x^" ++ toString i else "") ++
        (if i = 1 then "x" else "") ++
        (if i = 0 then toString (pol.get i) else "")
    else ""
  else ""

/-- The loop `for (int i = deg; i != -1; --i)` of `operator<<`: `n` iterations
are left, the next one is for `i = n - 1`, and `out` is what was written so far. -/
def renderLoop {T : Type} [Zero T] [One T] [Neg T] [LT T]
    [DecidableRel (fun a b : T => a < b)] [DecidableEq T] [ToString T]
    (pol : Polynomial T) (deg : Int) : Nat → String → String
  | 0, out => out
  | n + 1, out => renderLoop pol deg n (out ++ renderTerm pol deg n)

/-- `operator<<`: the text written for a polynomial. -/
def render {T : Type} [Zero T] [One T] [Neg T] [LT T]
    [DecidableRel (fun a b : T => a < b)] [DecidableEq T] [ToString T]
    (pol : Polynomial T) : String :=
  if pol.Degree = -1 then "0"
  else renderLoop pol pol.Degree (pol.Degree + 1).toNat ""

/-- Invariant I1: no entry of the map holds a coefficient equal to zero. -/
def I1 {T : Type} [Zero T] (p : Polynomial T) : Prop :=
  ∀ e ∈ p.coef, e.2 ≠ 0

instance {T : Type} [Zero T] [DecidableEq T] (p : Polynomial T) : Decidable p.I1 :=
  inferInstanceAs (Decidable (∀ e ∈ p.coef, e.2 ≠ 0))

end Polynomial

/-! ## The polynomial a map stands for -/

/-- The polynomial with the entries of a map as its monomials. -/
noncomputable def toPolyL {T : Type} [Semiring T] (l : List (Nat × T)) : T[X] :=
  (l.map (fun e => Polynomial.monomial e.1 e.2)).sum

/-- The polynomial (in the sense of Mathlib) that a map of coefficients stands for. -/
noncomputable def toPoly {T : Type} [Semiring T] (p : Polynomial T) : T[X] :=
  toPolyL p.coef

/-- What the loop of `operator/` keeps true, for the dividend `a` and a divisor
`b` that is not zero, over a field. -/
structure DivInv {T : Type} [Field T] [DecidableEq T] (a b : Polynomial T)
    (s : Polynomial.DivState T) : Prop where
  first_I1 : s.first.I1
  fd_eq : s.fd = s.first.Degree
  fd_lt : s.fd < (s.result.length : Int)
  eqn : toPoly a = toPoly (Polynomial.ofVector s.result) * toPoly b + toPoly s.first

/-! ## Loop bounds -/

/-- The number of loop iterations that is enough for `operator/` on the dividend `a`. -/
def divFuel {T : Type} (a : Polynomial T) : Nat := (a.Degree + 1).toNat

/-- The number of loop iterations that is enough for every loop of `operator,`
on the operands `a` and `b`. -/
def gcdFuel {T : Type} (a b : Polynomial T) : Nat := max (divFuel a) (divFuel b)

/-! ## Sample polynomials -/

/-- The polynomial `x^2 - 1` with rational coefficients. -/
def sampleA : Polynomial ℚ := ⟨[(0, -1), (2, 1)], by simp⟩

/-- The polynomial `2x + 2` with rational coefficients. -/
def sampleB : Polynomial ℚ := ⟨[(0, 2), (1, 2)], by simp⟩

/-- The polynomial `x^2 - 1` with integer coefficients. -/
def sampleZA : Polynomial ℤ := ⟨[(0, -1), (2, 1)], by decide⟩

/-- The polynomial `x + 1` with integer coefficients. -/
def sampleZB : Polynomial ℤ := ⟨[(0, 1), (1, 1)], by decide⟩

/-- The polynomial `x - 1` with integer coefficients. -/
def sampleZQ : Polynomial ℤ := ⟨[(0, -1), (1, 1)], by decide⟩

/-- Division of the C++ type `int`: the quotient is truncated towards zero. -/
def truncDiv : Div ℤ := ⟨Int.tdiv⟩

/-- The polynomial `x` with integer coefficients, built from `[0, 1]`. -/
def sampleX : Polynomial ℤ := Polynomial.ofVector [0, 1]

/-- The polynomial `2x` with integer coefficients, built from `[0, 2]`. -/
def sampleTwoX : Polynomial ℤ := Polynomial.ofVector [0, 2]

/-! ## Lookup and assignment -/

theorem find_assign {T : Type} (k j : Nat) (v : T) :
    ∀ l : List (Nat × T), find j (assign k v l) = if j = k then some v else find j l := by
  intro l
  induction l with
  | nil => simp [assign, find]
  | cons hd tl ih =>
    obtain ⟨k', v'⟩ := hd
    simp only [assign]
    by_cases h1 : k < k'
    · rw [if_pos h1]
      by_cases hj : j = k
      · simp [find, hj]
      · simp [find, hj]
    · rw [if_neg h1]
      by_cases h2 : k = k'
      · rw [if_pos h2]
        subst h2
        by_cases hj : j = k
        · simp [find, hj]
        · simp [find, hj]
      · rw [if_neg h2]
        simp only [find, ih]
        by_cases hj : j = k'
        · have hk : ¬ k' = k := fun e => h2 e.symm
          simp [hj, hk]
        · simp [hj]

theorem find_none_of_lt {T : Type} (k : Nat) :
    ∀ l : List (Nat × T), (∀ e ∈ l, k < e.1) → find k l = none := by
  intro l
  induction l with
  | nil => intro _; rfl
  | cons hd tl ih =>
    intro h
    obtain ⟨k', v'⟩ := hd
    have h1 : k < k' := h (k', v') (List.mem_cons_self _ _)
    simp only [find, if_neg (Nat.ne_of_lt h1)]
    exact ih (fun e he => h e (List.mem_cons_of_mem _ he))

theorem find_some_mem {T : Type} (k : Nat) (v : T) :
    ∀ l : List (Nat × T), find k l = some v → (k, v) ∈ l := by
  intro l
  induction l with
  | nil => intro h; simp [find] at h
  | cons hd tl ih =>
    intro h
    obtain ⟨k', v'⟩ := hd
    simp only [find] at h
    split_ifs at h with h1
    · subst h1
      simp only [Option.some.injEq] at h
      subst h
      exact List.mem_cons_self _ _
    · exact List.mem_cons_of_mem _ (ih h)

theorem mem_find_some {T : Type} :
    ∀ l : List (Nat × T), l.Pairwise (fun p q => p.1 < q.1) →
      ∀ e ∈ l, find e.1 l = some e.2 := by
  intro l
  induction l with
  | nil => intro _ e he; simp at he
  | cons hd tl ih =>
    intro hl e he
    obtain ⟨k', v'⟩ := hd
    have hl' := List.pairwise_cons.1 hl
    rcases List.mem_cons.1 he with h | h
    · subst h; simp [find]
    · have hlt : k' < e.1 := hl'.1 e h
      simp only [find, if_neg (Nat.ne_of_gt hlt)]
      exact ih hl'.2 e h

theorem coeff_toPolyL {T : Type} [Semiring T] (k : Nat) :
    ∀ l : List (Nat × T), l.Pairwise (fun p q => p.1 < q.1) →
      (toPolyL l).coeff k = (find k l).getD 0 := by
  intro l
  induction l with
  | nil => intro _; simp [toPolyL, find]
  | cons hd tl ih =>
    intro hl
    obtain ⟨k', v'⟩ := hd
    have hl' := List.pairwise_cons.1 hl
    have ih' := ih hl'.2
    simp only [toPolyL, List.map_cons, List.sum_cons, Polynomial.coeff_add,
      Polynomial.coeff_monomial] at ih' ⊢
    rw [ih']
    simp only [find]
    by_cases h : k = k'
    · subst h
      rw [find_none_of_lt k tl hl'.1]
      simp
    · have h' : ¬ k' = k := fun e => h e.symm
      simp [h, h']

theorem get_eq_getD {T : Type} [Zero T] (p : Polynomial T) (k : Nat) :
    p.get k = (find k p.coef).getD 0 := by
  unfold Polynomial.get
  cases find k p.coef <;> rfl

theorem coeff_toPoly {T : Type} [Semiring T] (p : Polynomial T) (k : Nat) :
    (toPoly p).coeff k = p.get k := by
  rw [get_eq_getD]
  exact coeff_toPolyL k p.coef p.ordered

theorem toPoly_empty {T : Type} [Semiring T] : toPoly (Polynomial.empty : Polynomial T) = 0 := by
  simp [toPoly, toPolyL, Polynomial.empty]

theorem get_set {T : Type} [Zero T] (p : Polynomial T) (k j : Nat) (v : T) :
    (p.set k v).get j = if j = k then v else p.get j := by
  simp only [get_eq_getD, Polynomial.set, find_assign]
  split_ifs <;> rfl

theorem toPoly_set {T : Type} [Ring T] (p : Polynomial T) (k : Nat) (v : T) :
    toPoly (p.set k v) = toPoly p + Polynomial.monomial k (v - p.get k) := by
  ext j
  simp only [coeff_toPoly, Polynomial.coeff_add, Polynomial.coeff_monomial, get_set]
  by_cases h : j = k
  · subst h; simp
  · have h' : ¬ k = j := fun e => h e.symm
    simp [h, h']

theorem toPoly_addAt {T : Type} [Semiring T] (p : Polynomial T) (k : Nat) (v : T) :
    toPoly (p.addAt k v) = toPoly p + Polynomial.monomial k v := by
  ext j
  simp only [coeff_toPoly, Polynomial.coeff_add, Polynomial.coeff_monomial, get_set,
    Polynomial.addAt]
  by_cases h : j = k
  · subst h; simp
  · have h' : ¬ k = j := fun e => h e.symm
    simp [h, h']

theorem toPoly_subAt {T : Type} [Ring T] (p : Polynomial T) (k : Nat) (v : T) :
    toPoly (p.subAt k v) = toPoly p - Polynomial.monomial k v := by
  ext j
  simp only [coeff_toPoly, Polynomial.coeff_sub, Polynomial.coeff_monomial, get_set,
    Polynomial.subAt]
  by_cases h : j = k
  · subst h; simp
  · have h' : ¬ k = j := fun e => h e.symm
    simp [h, h']

theorem toPolyL_filter {T : Type} [Semiring T] [DecidableEq T] :
    ∀ l : List (Nat × T), toPolyL (l.filter (fun e => e.2 ≠ 0)) = toPolyL l := by
  intro l
  induction l with
  | nil => rfl
  | cons hd tl ih =>
    obtain ⟨k', v'⟩ := hd
    have hcons : toPolyL ((k', v') :: tl) = Polynomial.monomial k' v' + toPolyL tl := by
      simp [toPolyL]
    by_cases h : v' = 0
    · have hf : List.filter (fun e : Nat × T => decide (e.2 ≠ 0)) ((k', v') :: tl)
          = List.filter (fun e : Nat × T => decide (e.2 ≠ 0)) tl := by
        rw [List.filter_cons]; simp [h]
      rw [hf, ih, hcons, h]
      simp
    · have hf : List.filter (fun e : Nat × T => decide (e.2 ≠ 0)) ((k', v') :: tl)
          = (k', v') :: List.filter (fun e : Nat × T => decide (e.2 ≠ 0)) tl := by
        rw [List.filter_cons]; simp [h]
      rw [hf, hcons, ← ih]
      simp [toPolyL]

theorem toPoly_Delete_Zeros {T : Type} [Semiring T] [DecidableEq T] (p : Polynomial T) :
    toPoly p.Delete_Zeros = toPoly p :=
  toPolyL_filter p.coef

theorem I1_Delete_Zeros {T : Type} [Zero T] [DecidableEq T] (p : Polynomial T) :
    p.Delete_Zeros.I1 := by
  intro e he
  simp only [Polynomial.Delete_Zeros, List.mem_filter, decide_eq_true_eq] at he
  exact he.2

/-! ## Equality of maps from equality of coefficients -/

theorem entries_ext {T : Type} [Zero T] :
    ∀ l₁ l₂ : List (Nat × T), l₁.Pairwise (fun p q => p.1 < q.1) →
      l₂.Pairwise (fun p q => p.1 < q.1) → (∀ e ∈ l₁, e.2 ≠ 0) → (∀ e ∈ l₂, e.2 ≠ 0) →
      (∀ k, (find k l₁).getD 0 = (find k l₂).getD 0) → l₁ = l₂ := by
  intro l₁
  induction l₁ with
  | nil =>
    intro l₂ _ _ _ h2 h
    cases l₂ with
    | nil => rfl
    | cons hd tl =>
      exfalso
      have := h hd.1
      simp [find] at this
      exact h2 hd (List.mem_cons_self _ _) this.symm
  | cons hd₁ tl₁ ih =>
    intro l₂ s1 s2 h1 h2 h
    obtain ⟨k₁, v₁⟩ := hd₁
    have s1' := List.pairwise_cons.1 s1
    have hv₁ : v₁ ≠ 0 := h1 (k₁, v₁) (List.mem_cons_self _ _)
    cases l₂ with
    | nil =>
      exfalso
      have := h k₁
      simp [find] at this
      exact hv₁ this
    | cons hd₂ tl₂ =>
      obtain ⟨k₂, v₂⟩ := hd₂
      have s2' := List.pairwise_cons.1 s2
      have hv₂ : v₂ ≠ 0 := h2 (k₂, v₂) (List.mem_cons_self _ _)
      have hk : k₁ = k₂ := by
        rcases Nat.lt_trichotomy k₁ k₂ with hlt | heq | hgt
        · exfalso
          have := h k₁
          have hn : find k₁ tl₂ = none :=
            find_none_of_lt k₁ tl₂ (fun e he => lt_trans hlt (s2'.1 e he))
          simp [find, Nat.ne_of_lt hlt, hn] at this
          exact hv₁ this
        · exact heq
        · exfalso
          have := h k₂
          have hn : find k₂ tl₁ = none :=
            find_none_of_lt k₂ tl₁ (fun e he => lt_trans hgt (s1'.1 e he))
          simp [find, Nat.ne_of_lt hgt, hn] at this
          exact hv₂ this.symm
      subst hk
      have hv : v₁ = v₂ := by
        have := h k₁
        simpa [find] using this
      subst hv
      have htl : tl₁ = tl₂ := by
        apply ih tl₂ s1'.2 s2'.2 (fun e he => h1 e (List.mem_cons_of_mem _ he))
          (fun e he => h2 e (List.mem_cons_of_mem _ he))
        intro k
        by_cases hkk : k = k₁
        · subst hkk
          rw [find_none_of_lt k tl₁ s1'.1, find_none_of_lt k tl₂ s2'.1]
        · have := h k
          simpa [find, hkk] using this
      rw [htl]

theorem ext_get {T : Type} [Zero T] (a b : Polynomial T) (ha : a.I1) (hb : b.I1)
    (h : ∀ k, a.get k = b.get k) : a = b := by
  have : a.coef = b.coef :=
    entries_ext a.coef b.coef a.ordered b.ordered ha hb
      (fun k => by rw [← get_eq_getD, ← get_eq_getD]; exact h k)
  cases a; cases b
  simp only [Polynomial.mk.injEq]
  exact this

theorem toPoly_inj {T : Type} [Semiring T] (a b : Polynomial T) (ha : a.I1) (hb : b.I1)
    (h : toPoly a = toPoly b) : a = b :=
  ext_get a b ha hb (fun k => by rw [← coeff_toPoly, ← coeff_toPoly, h])

theorem get_Delete_Zeros {T : Type} [Semiring T] [DecidableEq T] (p : Polynomial T) (k : Nat) :
    p.Delete_Zeros.get k = p.get k := by
  rw [← coeff_toPoly, ← coeff_toPoly, toPoly_Delete_Zeros]

/-! ## The degree -/

theorem getLast_max {T : Type} :
    ∀ (l : List (Nat × T)) (x : Nat × T), l.Pairwise (fun p q => p.1 < q.1) →
      l.getLast? = some x → ∀ e ∈ l, e.1 ≤ x.1 := by
  intro l
  induction l with
  | nil => intro x _ h; simp at h
  | cons hd tl ih =>
    intro x hs hx e he
    have hs' := List.pairwise_cons.1 hs
    cases tl with
    | nil =>
      simp at hx he
      subst hx; subst he
      exact le_refl _
    | cons hd' tl' =>
      have hx' : (hd' :: tl').getLast? = some x := by
        simpa [List.getLast?_cons_cons] using hx
      rcases List.mem_cons.1 he with h | h
      · subst h
        have hmem : x ∈ hd' :: tl' := List.mem_of_getLast?_eq_some hx'
        exact le_of_lt (hs'.1 x hmem)
      · exact ih x hs'.2 hx' e h

theorem Degree_empty {T : Type} : (Polynomial.empty : Polynomial T).Degree = -1 := rfl

theorem Degree_ge {T : Type} (p : Polynomial T) : -1 ≤ p.Degree := by
  unfold Polynomial.Degree
  cases p.coef.getLast? with
  | none => simp
  | some e => simp only; omega

theorem Degree_neg_iff {T : Type} (p : Polynomial T) : p.Degree < 0 ↔ p.coef = [] := by
  unfold Polynomial.Degree
  constructor
  · intro h
    cases hl : p.coef.getLast? with
    | none => exact List.getLast?_eq_none_iff.1 hl
    | some e =>
      rw [hl] at h
      simp only at h
      omega
  · intro h
    rw [h]
    simp

theorem key_le_Degree {T : Type} (p : Polynomial T) : ∀ e ∈ p.coef, (e.1 : Int) ≤ p.Degree := by
  intro e he
  unfold Polynomial.Degree
  cases hl : p.coef.getLast? with
  | none =>
    rw [List.getLast?_eq_none_iff.1 hl] at he
    simp at he
  | some x =>
    simp only
    exact_mod_cast getLast_max p.coef x p.ordered hl e he

theorem get_eq_zero_of_Degree_lt {T : Type} [Zero T] (p : Polynomial T) (k : Nat)
    (h : p.Degree < (k : Int)) : p.get k = 0 := by
  rw [get_eq_getD]
  cases hf : find k p.coef with
  | none => rfl
  | some v =>
    exfalso
    have := key_le_Degree p (k, v) (find_some_mem k v p.coef hf)
    simp only at this
    omega

theorem get_Degree_ne_zero {T : Type} [Zero T] (p : Polynomial T) (hp : p.I1)
    (h : 0 ≤ p.Degree) : p.get p.Degree.toNat ≠ 0 := by
  unfold Polynomial.Degree at h ⊢
  cases hl : p.coef.getLast? with
  | none =>
    rw [hl] at h
    simp at h
  | some x =>
    simp only [Int.toNat_ofNat]
    have hmem : x ∈ p.coef := List.mem_of_getLast?_eq_some hl
    rw [get_eq_getD, mem_find_some p.coef p.ordered x hmem]
    exact hp x hmem

theorem toSizeT_of_nonneg (i : Int) (h : 0 ≤ i) : toSizeT i = i.toNat := by
  unfold toSizeT
  rw [if_neg (not_lt.2 h)]

theorem toSizeT_neg_one : toSizeT (-1) = 2 ^ 64 - 1 := by
  decide

theorem toPoly_eq_sum {T : Type} [Semiring T] (p : Polynomial T) (n : Nat)
    (h : p.Degree < (n : Int)) :
    toPoly p = ∑ i in Finset.range n, Polynomial.monomial i (p.get i) := by
  ext k
  rw [coeff_toPoly, Polynomial.finset_sum_coeff]
  simp only [Polynomial.coeff_monomial]
  rw [Finset.sum_ite_eq' (Finset.range n) k]
  by_cases hk : k ∈ Finset.range n
  · rw [if_pos hk]
  · rw [if_neg hk]
    apply get_eq_zero_of_Degree_lt
    have : n ≤ k := by simpa using hk
    omega

theorem Degree_lt_loopBound {T : Type} (p : Polynomial T) :
    p.Degree < (((p.Degree + 1).toNat : Nat) : Int) := by
  have := Degree_ge p
  omega

theorem toPoly_eq_sum_Degree {T : Type} [Semiring T] (p : Polynomial T) :
    toPoly p = ∑ i in Finset.range (p.Degree + 1).toNat, Polynomial.monomial i (p.get i) :=
  toPoly_eq_sum p _ (Degree_lt_loopBound p)

theorem toPoly_eq_zero_iff {T : Type} [Semiring T] (p : Polynomial T) (hp : p.I1) :
    toPoly p = 0 ↔ p.coef = [] := by
  constructor
  · intro h
    have : p = Polynomial.empty := by
      apply toPoly_inj p _ hp (fun e he => by simp [Polynomial.empty] at he)
      rw [h, toPoly_empty]
    rw [this]
    rfl
  · intro h
    simp [toPoly, toPolyL, h]

theorem natDegree_toPoly {T : Type} [Semiring T] (p : Polynomial T) (hp : p.I1)
    (h : 0 ≤ p.Degree) : ((toPoly p).natDegree : Int) = p.Degree := by
  have h1 : (toPoly p).natDegree ≤ p.Degree.toNat := by
    rw [Polynomial.natDegree_le_iff_coeff_eq_zero]
    intro N hN
    rw [coeff_toPoly]
    apply get_eq_zero_of_Degree_lt
    omega
  have h2 : p.Degree.toNat ≤ (toPoly p).natDegree := by
    apply Polynomial.le_natDegree_of_ne_zero
    rw [coeff_toPoly]
    exact get_Degree_ne_zero p hp h
  omega

theorem degree_toPoly_lt {T : Type} [Semiring T] (p : Polynomial T) (n : Nat)
    (h : p.Degree < (n : Int)) : (toPoly p).degree < (n : WithBot ℕ) := by
  rw [Polynomial.degree_lt_iff_coeff_zero]
  intro m hm
  rw [coeff_toPoly]
  apply get_eq_zero_of_Degree_lt
  omega

/-! ## Constructors -/

theorem get_fill {T : Type} [Zero T] :
    ∀ (v : List T) (deg : Nat) (p : Polynomial T) (k : Nat),
      (Polynomial.fill deg v p).get k =
        if deg ≤ k ∧ k < deg + v.length then v.getD (k - deg) 0 else p.get k := by
  intro v
  induction v with
  | nil =>
    intro deg p k
    have : ¬ (deg ≤ k ∧ k < deg + 0) := by omega
    simp only [Polynomial.fill, List.length_nil, if_neg this]
  | cons hd tl ih =>
    intro deg p k
    simp only [Polynomial.fill, ih, get_set, List.length_cons]
    by_cases h1 : deg + 1 ≤ k ∧ k < deg + 1 + tl.length
    · have h2 : deg ≤ k ∧ k < deg + (tl.length + 1) := by omega
      rw [if_pos h1, if_pos h2]
      have : k - deg = (k - (deg + 1)) + 1 := by omega
      rw [this, List.getD_cons_succ]
    · rw [if_neg h1]
      by_cases h3 : k = deg
      · have h2 : deg ≤ k ∧ k < deg + (tl.length + 1) := by omega
        rw [if_pos h3, if_pos h2, h3]
        simp
      · have h2 : ¬ (deg ≤ k ∧ k < deg + (tl.length + 1)) := by omega
        rw [if_neg h3, if_neg h2]

theorem get_empty {T : Type} [Zero T] (k : Nat) : (Polynomial.empty : Polynomial T).get k = 0 :=
  rfl

theorem get_ofVector {T : Type} [Semiring T] [DecidableEq T] (v : List T) (k : Nat) :
    (Polynomial.ofVector v).get k = v.getD k 0 := by
  unfold Polynomial.ofVector
  rw [get_Delete_Zeros, get_fill]
  by_cases h : k < v.length
  · have : 0 ≤ k ∧ k < 0 + v.length := by omega
    rw [if_pos this]
    rfl
  · have : ¬ (0 ≤ k ∧ k < 0 + v.length) := by omega
    rw [if_neg this, get_empty]
    rw [List.getD_eq_default]
    omega

theorem I1_ofVector {T : Type} [Zero T] [DecidableEq T] (v : List T) :
    (Polynomial.ofVector v).I1 :=
  I1_Delete_Zeros _

theorem I1_empty {T : Type} [Zero T] : (Polynomial.empty : Polynomial T).I1 := by
  intro e he
  simp [Polynomial.empty] at he

theorem I1_ofScalar {T : Type} [Zero T] [DecidableEq T] (c : T) :
    (Polynomial.ofScalar c).I1 := by
  unfold Polynomial.ofScalar
  split_ifs with h
  · intro e he
    simp only [Polynomial.set, Polynomial.empty, assign, List.mem_singleton] at he
    subst he
    exact h
  · exact I1_empty

theorem toPoly_ofScalar {T : Type} [Semiring T] [DecidableEq T] (c : T) :
    toPoly (Polynomial.ofScalar c) = Polynomial.C c := by
  unfold Polynomial.ofScalar
  split_ifs with h
  · simp [toPoly, toPolyL, Polynomial.set, Polynomial.empty, assign, Polynomial.monomial_zero_left]
  · rw [toPoly_empty, not_not.1 h, map_zero]

theorem toPoly_ofVector {T : Type} [Semiring T] [DecidableEq T] (v : List T) :
    toPoly (Polynomial.ofVector v) =
      ∑ i in Finset.range v.length, Polynomial.monomial i (v.getD i 0) := by
  ext k
  rw [coeff_toPoly, get_ofVector, Polynomial.finset_sum_coeff]
  simp only [Polynomial.coeff_monomial]
  rw [Finset.sum_ite_eq' (Finset.range v.length) k]
  by_cases hk : k ∈ Finset.range v.length
  · rw [if_pos hk]
  · rw [if_neg hk]
    rw [List.getD_eq_default]
    simpa using hk

/-! ## The loops of the arithmetic operators -/

theorem toPoly_foldl_range {T : Type} [Semiring T] (F : Polynomial T → Nat → Polynomial T)
    (h : Nat → T[X]) (hF : ∀ acc i, toPoly (F acc i) = toPoly acc + h i) :
    ∀ (n : Nat) (p : Polynomial T),
      toPoly ((List.range n).foldl F p) = toPoly p + ∑ i in Finset.range n, h i := by
  intro n
  induction n with
  | zero => intro p; simp
  | succ n ih =>
    intro p
    rw [List.range_succ, List.foldl_append, List.foldl_cons, List.foldl_nil, hF, ih,
      Finset.sum_range_succ, add_assoc]

theorem toPoly_addAssign {T : Type} [Semiring T] [DecidableEq T] (a b : Polynomial T) :
    toPoly (a.addAssign b) = toPoly a + toPoly b := by
  unfold Polynomial.addAssign
  rw [toPoly_Delete_Zeros,
    toPoly_foldl_range (fun acc i => acc.addAt i (b.get i))
      (fun i => Polynomial.monomial i (b.get i)) (fun acc i => toPoly_addAt acc i _),
    ← toPoly_eq_sum_Degree]

theorem toPoly_add {T : Type} [Semiring T] [DecidableEq T] (a b : Polynomial T) :
    toPoly (a.add b) = toPoly a + toPoly b :=
  toPoly_addAssign a b

theorem toPoly_subAssign {T : Type} [Ring T] [DecidableEq T] (a b : Polynomial T) :
    toPoly (a.subAssign b) = toPoly a - toPoly b := by
  unfold Polynomial.subAssign
  rw [toPoly_Delete_Zeros,
    toPoly_foldl_range (fun acc i => acc.subAt i (b.get i))
      (fun i => - Polynomial.monomial i (b.get i))
      (fun acc i => by rw [toPoly_subAt, sub_eq_add_neg]),
    Finset.sum_neg_distrib, ← toPoly_eq_sum_Degree, sub_eq_add_neg]

theorem toPoly_sub {T : Type} [Ring T] [DecidableEq T] (a b : Polynomial T) :
    toPoly (a.sub b) = toPoly a - toPoly b :=
  toPoly_subAssign a b

theorem toPoly_mul {T : Type} [Semiring T] [DecidableEq T] (a b : Polynomial T) :
    toPoly (a.mul b) = toPoly a * toPoly b := by
  unfold Polynomial.mul
  rw [toPoly_Delete_Zeros,
    toPoly_foldl_range
      (fun res i =>
        (List.range (b.Degree + 1).toNat).foldl
          (fun res j => res.addAt (i + j) (a.get i * b.get j)) res)
      (fun i => ∑ j in Finset.range (b.Degree + 1).toNat,
        Polynomial.monomial (i + j) (a.get i * b.get j))
      (fun acc i =>
        toPoly_foldl_range (fun res j => res.addAt (i + j) (a.get i * b.get j))
          (fun j => Polynomial.monomial (i + j) (a.get i * b.get j))
          (fun acc j => toPoly_addAt acc (i + j) _) _ acc),
    toPoly_empty, zero_add]
  conv_rhs => rw [toPoly_eq_sum_Degree a, toPoly_eq_sum_Degree b]
  rw [Finset.sum_mul_sum]
  simp only [Polynomial.monomial_mul_monomial]

theorem toPoly_mulAssign {T : Type} [Semiring T] [DecidableEq T] (a b : Polynomial T) :
    toPoly (a.mulAssign b) = toPoly a * toPoly b :=
  toPoly_mul a b

theorem I1_addAssign {T : Type} [Zero T] [Add T] [DecidableEq T] (a b : Polynomial T) :
    (a.addAssign b).I1 :=
  I1_Delete_Zeros _

theorem I1_subAssign {T : Type} [Zero T] [Sub T] [DecidableEq T] (a b : Polynomial T) :
    (a.subAssign b).I1 :=
  I1_Delete_Zeros _

theorem I1_add {T : Type} [Zero T] [Add T] [DecidableEq T] (a b : Polynomial T) :
    (a.add b).I1 :=
  I1_Delete_Zeros _

theorem I1_sub {T : Type} [Zero T] [Sub T] [DecidableEq T] (a b : Polynomial T) :
    (a.sub b).I1 :=
  I1_Delete_Zeros _

theorem I1_mul {T : Type} [Zero T] [Add T] [Mul T] [DecidableEq T] (a b : Polynomial T) :
    (a.mul b).I1 :=
  I1_Delete_Zeros _

/-! ## Evaluation and composition -/

theorem horner_eq {T : Type} [Semiring T] (p : Polynomial T) (x : T) :
    ∀ (n : Nat) (ans : T),
      Polynomial.horner p x n ans = ans * x ^ n + ∑ i in Finset.range n, p.get i * x ^ i := by
  intro n
  induction n with
  | zero => intro ans; simp [Polynomial.horner]
  | succ n ih =>
    intro ans
    rw [Polynomial.horner, ih, Finset.sum_range_succ, add_mul, mul_assoc, ← pow_succ']
    abel

theorem eval_eq_sum {T : Type} [Semiring T] (p : Polynomial T) (x : T) :
    p.eval x = ∑ i in Finset.range (p.Degree + 1).toNat, p.get i * x ^ i := by
  unfold Polynomial.eval
  rw [horner_eq, zero_mul, zero_add]

theorem eval_eq_sum_of_lt {T : Type} [Semiring T] (p : Polynomial T) (x : T) (n : Nat)
    (h : p.Degree < (n : Int)) :
    p.eval x = ∑ i in Finset.range n, p.get i * x ^ i := by
  rw [eval_eq_sum]
  have hle : (p.Degree + 1).toNat ≤ n := by omega
  apply Finset.sum_subset
  · intro i hi
    simp only [Finset.mem_range] at hi ⊢
    omega
  · intro i _ hi
    simp only [Finset.mem_range, not_lt] at hi
    rw [get_eq_zero_of_Degree_lt p i (by omega), zero_mul]

theorem eval_toPoly {T : Type} [Semiring T] (p : Polynomial T) (x : T) :
    (toPoly p).eval x = p.eval x := by
  rw [eval_eq_sum, toPoly_eq_sum_Degree p, Polynomial.eval_finset_sum]
  simp only [Polynomial.eval_monomial]

theorem toPoly_iterate_mulAssign {T : Type} [Semiring T] [DecidableEq T] (b : Polynomial T) :
    ∀ (i : Nat) (p : Polynomial T),
      toPoly ((fun tmp : Polynomial T => tmp.mulAssign b)^[i] p) = toPoly p * toPoly b ^ i := by
  intro i
  induction i with
  | zero => intro p; simp
  | succ i ih =>
    intro p
    rw [Function.iterate_succ_apply, ih, toPoly_mulAssign, pow_succ', mul_assoc]

theorem toPoly_compose {T : Type} [Semiring T] [DecidableEq T] (a b : Polynomial T) :
    toPoly (a.compose b) = (toPoly a).comp (toPoly b) := by
  unfold Polynomial.compose
  rw [toPoly_foldl_range
      (fun composition i =>
        if a.get i ≠ 0 then
          composition.addAssign
            ((fun tmp : Polynomial T => tmp.mulAssign b)^[i] (Polynomial.ofScalar (a.get i)))
        else composition)
      (fun i => Polynomial.C (a.get i) * toPoly b ^ i)
      (fun acc i => by
        by_cases h : a.get i = 0
        · simp [h]
        · simp only [ne_eq, h, not_false_eq_true, if_true]
          rw [toPoly_addAssign, toPoly_iterate_mulAssign, toPoly_ofScalar]),
    toPoly_empty, zero_add]
  conv_rhs => rw [toPoly_eq_sum_Degree a]
  simp only [Polynomial.comp, Polynomial.eval₂_finset_sum, Polynomial.eval₂_monomial]

/-! ## Long division over a field -/

theorem toPoly_eq_zero_of_Degree_neg {T : Type} [Semiring T] (p : Polynomial T)
    (h : p.Degree < 0) : toPoly p = 0 := by
  have := (Degree_neg_iff p).1 h
  simp [toPoly, toPolyL, this]

theorem toPoly_ne_zero_of_Degree_nonneg {T : Type} [Semiring T] (p : Polynomial T)
    (hp : p.I1) (h : 0 ≤ p.Degree) : toPoly p ≠ 0 := by
  intro h0
  have := get_Degree_ne_zero p hp h
  rw [← coeff_toPoly, h0] at this
  simp at this

theorem Degree_nonneg_of_toPoly_ne_zero {T : Type} [Semiring T] (p : Polynomial T)
    (h : toPoly p ≠ 0) : 0 ≤ p.Degree := by
  by_contra hneg
  exact h (toPoly_eq_zero_of_Degree_neg p (by omega))

theorem Degree_lt_of_degree_lt {T : Type} [Semiring T] (p q : Polynomial T) (hp : p.I1)
    (hq : q.I1) (h : (toPoly p).degree < (toPoly q).degree) : p.Degree < q.Degree := by
  have hq0 : toPoly q ≠ 0 := by
    intro h0
    rw [h0, Polynomial.degree_zero] at h
    exact not_lt_bot h
  have hqd := Degree_nonneg_of_toPoly_ne_zero q hq0
  by_cases hp0 : 0 ≤ p.Degree
  · have h1 := natDegree_toPoly p hp hp0
    have h2 := natDegree_toPoly q hq hqd
    have h3 : (toPoly p).natDegree < (toPoly q).natDegree :=
      Polynomial.natDegree_lt_natDegree (toPoly_ne_zero_of_Degree_nonneg p hp hp0) h
    omega
  · omega

theorem degree_lt_of_Degree_lt {T : Type} [Semiring T] (p q : Polynomial T)
    (hq : q.I1) (h : p.Degree < q.Degree) : (toPoly p).degree < (toPoly q).degree := by
  have hqd : 0 ≤ q.Degree := by have := Degree_ge p; omega
  have hq0 := toPoly_ne_zero_of_Degree_nonneg q hq hqd
  rw [Polynomial.degree_eq_natDegree hq0]
  have h2 := natDegree_toPoly q hq hqd
  have := degree_toPoly_lt p (toPoly q).natDegree (by omega)
  exact_mod_cast this

theorem leadingCoeff_toPoly {T : Type} [Semiring T] (p : Polynomial T) (hp : p.I1)
    (h : 0 ≤ p.Degree) : (toPoly p).leadingCoeff = p.get (toSizeT p.Degree) := by
  rw [toSizeT_of_nonneg _ h, Polynomial.leadingCoeff, coeff_toPoly]
  congr 1
  have := natDegree_toPoly p hp h
  omega

theorem degree_step_lt {T : Type} [Field T] (F B : T[X]) (hF : F ≠ 0) (hB : B ≠ 0)
    (hdeg : B.natDegree ≤ F.natDegree) :
    (F - B * Polynomial.monomial (F.natDegree - B.natDegree)
      (F.leadingCoeff / B.leadingCoeff)).degree < F.degree := by
  have hlF : F.leadingCoeff ≠ 0 := Polynomial.leadingCoeff_ne_zero.2 hF
  have hlB : B.leadingCoeff ≠ 0 := Polynomial.leadingCoeff_ne_zero.2 hB
  have ht : F.leadingCoeff / B.leadingCoeff ≠ 0 := div_ne_zero hlF hlB
  apply Polynomial.degree_sub_lt _ hF
  · rw [Polynomial.leadingCoeff_mul, Polynomial.leadingCoeff_monomial]
    field_simp
  · rw [Polynomial.degree_mul, Polynomial.degree_monomial _ ht,
      Polynomial.degree_eq_natDegree hF, Polynomial.degree_eq_natDegree hB]
    norm_cast
    omega

theorem getD_replicate_append {T : Type} [Zero T] (n k : Nat) (t : T) :
    (List.replicate n (0 : T) ++ [t]).getD k 0 = if k = n then t else 0 := by
  rw [List.getD_eq_getElem?_getD]
  by_cases h1 : k < n
  · rw [List.getElem?_append_left (by simpa using h1)]
    simp [h1, Nat.ne_of_lt h1]
  · rw [List.getElem?_append_right (by simpa using h1)]
    simp only [List.length_replicate]
    by_cases h2 : k = n
    · subst h2; simp
    · have : k - n ≠ 0 := by omega
      obtain ⟨m, hm⟩ := Nat.exists_eq_succ_of_ne_zero this
      simp [hm, h2]

theorem toPoly_ofVector_monomial {T : Type} [Semiring T] [DecidableEq T] (n : Nat) (t : T) :
    toPoly (Polynomial.ofVector (List.replicate n (0 : T) ++ [t])) = Polynomial.monomial n t := by
  ext k
  rw [coeff_toPoly, get_ofVector, getD_replicate_append, Polynomial.coeff_monomial]
  by_cases h : k = n
  · simp [h]
  · have h' : ¬ n = k := fun e => h e.symm
    simp [h, h']

theorem getD_set {T : Type} [Zero T] (r : List T) (idx k : Nat) (v : T) (h : idx < r.length) :
    (r.set idx v).getD k 0 = if k = idx then v else r.getD k 0 := by
  rw [List.getD_eq_getElem?_getD, List.getD_eq_getElem?_getD, List.getElem?_set]
  by_cases hk : k = idx
  · subst hk; simp [h]
  · have hk' : ¬ idx = k := fun e => hk e.symm
    simp [hk, hk']

theorem toPoly_ofVector_set {T : Type} [Semiring T] [DecidableEq T] (r : List T) (idx : Nat)
    (t : T) (h : idx < r.length) :
    toPoly (Polynomial.ofVector (r.set idx (r.getD idx 0 + t))) =
      toPoly (Polynomial.ofVector r) + Polynomial.monomial idx t := by
  ext k
  rw [Polynomial.coeff_add, coeff_toPoly, coeff_toPoly, get_ofVector, get_ofVector,
    getD_set r idx k _ h, Polynomial.coeff_monomial]
  by_cases hk : k = idx
  · subst hk; simp
  · have hk' : ¬ idx = k := fun e => hk e.symm
    simp [hk, hk']

theorem toPoly_ofVector_replicate {T : Type} [Semiring T] [DecidableEq T] (n : Nat) :
    toPoly (Polynomial.ofVector (List.replicate n (0 : T))) = 0 := by
  ext k
  rw [coeff_toPoly, get_ofVector, List.getD_eq_getElem?_getD]
  by_cases h : k < n
  · simp [h]
  · simp [h]

theorem divStep_spec {T : Type} [Field T] [DecidableEq T] (a b : Polynomial T)
    (hb : b.I1) (hb0 : 0 ≤ b.Degree) (s : Polynomial.DivState T) (hs : DivInv a b s)
    (hg : s.fd ≥ b.Degree) :
    ∃ s', Polynomial.divStep b s = some s' ∧ DivInv a b s' ∧ s'.fd < s.fd := by
  have hf0 : 0 ≤ s.first.Degree := by have := hs.fd_eq; omega
  have hF := toPoly_ne_zero_of_Degree_nonneg s.first hs.first_I1 hf0
  have hB := toPoly_ne_zero_of_Degree_nonneg b hb hb0
  have hnF := natDegree_toPoly s.first hs.first_I1 hf0
  have hnB := natDegree_toPoly b hb hb0
  have hidx : Polynomial.divIndex b s = (toPoly s.first).natDegree - (toPoly b).natDegree := by
    unfold Polynomial.divIndex
    rw [toSizeT_of_nonneg _ (by omega), hs.fd_eq]
    omega
  have hlen : Polynomial.divIndex b s < s.result.length := by
    have := hs.fd_lt
    have := hs.fd_eq
    omega
  have hT : Polynomial.divT b s = (toPoly s.first).leadingCoeff / (toPoly b).leadingCoeff := by
    unfold Polynomial.divT
    rw [leadingCoeff_toPoly s.first hs.first_I1 hf0, leadingCoeff_toPoly b hb hb0, hs.fd_eq]
  have hP : toPoly (Polynomial.ofVector (Polynomial.divTmp b s)) =
      Polynomial.monomial ((toPoly s.first).natDegree - (toPoly b).natDegree)
        ((toPoly s.first).leadingCoeff / (toPoly b).leadingCoeff) := by
    unfold Polynomial.divTmp
    have hfd := hs.fd_eq
    have e : (s.fd - b.Degree).toNat =
        (toPoly s.first).natDegree - (toPoly b).natDegree := by omega
    rw [toPoly_ofVector_monomial, hT, e]
  have hFirst : toPoly (Polynomial.divFirst b s) = toPoly s.first - toPoly b *
      Polynomial.monomial ((toPoly s.first).natDegree - (toPoly b).natDegree)
        ((toPoly s.first).leadingCoeff / (toPoly b).leadingCoeff) := by
    unfold Polynomial.divFirst
    rw [toPoly_subAssign, toPoly_mul, hP]
  have hI1 : (Polynomial.divFirst b s).I1 := I1_subAssign _ _
  have hdlt : (toPoly (Polynomial.divFirst b s)).degree < (toPoly s.first).degree := by
    rw [hFirst]
    have hfd := hs.fd_eq
    exact degree_step_lt _ _ hF hB (by omega)
  have hDlt : (Polynomial.divFirst b s).Degree < s.first.Degree :=
    Degree_lt_of_degree_lt _ _ hI1 hs.first_I1 hdlt
  refine ⟨_, by unfold Polynomial.divStep; rw [if_pos hlen], ?_, ?_⟩
  · refine ⟨hI1, rfl, ?_, ?_⟩
    · simp only [List.length_set]
      have := hs.fd_lt
      have := hs.fd_eq
      omega
    · simp only
      rw [toPoly_ofVector_set _ _ _ hlen, hFirst, hT, hidx, hs.eqn]
      ring
  · simp only
    rw [hs.fd_eq]
    exact hDlt

theorem divLoop_spec {T : Type} [Field T] [DecidableEq T] (a b : Polynomial T)
    (hb : b.I1) (hb0 : 0 ≤ b.Degree) :
    ∀ (m : Nat) (s : Polynomial.DivState T), DivInv a b s → (s.fd + 1).toNat ≤ m →
      ∃ r, (∀ fuel, m ≤ fuel → Polynomial.divLoop b fuel s = Outcome.done r) ∧
        (toPoly a - toPoly (Polynomial.ofVector r) * toPoly b).degree < (toPoly b).degree := by
  intro m
  induction m with
  | zero =>
    intro s hs hm
    have hlt : ¬ s.fd ≥ b.Degree := by omega
    refine ⟨s.result, ?_, ?_⟩
    · intro fuel _
      rw [Polynomial.divLoop.eq_def]; simp only [if_neg hlt]
    · rw [hs.eqn, add_sub_cancel_left]
      apply degree_lt_of_Degree_lt _ _ hb
      have := hs.fd_eq
      omega
  | succ m ih =>
    intro s hs hm
    by_cases hg : s.fd ≥ b.Degree
    · obtain ⟨s', hstep, hs', hlt⟩ := divStep_spec a b hb hb0 s hs hg
      have hfd' := Degree_ge s'.first
      have hfdeq := hs'.fd_eq
      obtain ⟨r, hr, hdeg⟩ := ih s' hs' (by omega)
      refine ⟨r, ?_, hdeg⟩
      intro fuel hfuel
      obtain ⟨f, rfl⟩ : ∃ f, fuel = f + 1 := ⟨fuel - 1, by omega⟩
      rw [Polynomial.divLoop.eq_def]
      simp only [if_pos hg, hstep]
      exact hr f (by omega)
    · refine ⟨s.result, ?_, ?_⟩
      · intro fuel _
        rw [Polynomial.divLoop.eq_def]; simp only [if_neg hg]
      · rw [hs.eqn, add_sub_cancel_left]
        apply degree_lt_of_Degree_lt _ _ hb
        have := hs.fd_eq
        omega

theorem divInit_inv {T : Type} [Field T] [DecidableEq T] (a b : Polynomial T) (ha : a.I1) :
    DivInv a b (Polynomial.divInit a) := by
  have hge := Degree_ge a
  refine ⟨ha, rfl, ?_, ?_⟩
  · simp only [Polynomial.divInit, List.length_replicate]
    rw [toSizeT_of_nonneg _ (by omega)]
    omega
  · simp only [Polynomial.divInit]
    rw [toPoly_ofVector_replicate, zero_mul, zero_add]

theorem div_spec {T : Type} [Field T] [DecidableEq T] (a b : Polynomial T)
    (ha : a.I1) (hb : b.I1) (hb0 : 0 ≤ b.Degree) :
    ∃ q : Polynomial T, q.I1 ∧
      (∀ fuel, divFuel a ≤ fuel → Polynomial.div fuel a b = Outcome.done q) ∧
      (toPoly a - toPoly q * toPoly b).degree < (toPoly b).degree := by
  obtain ⟨r, hr, hdeg⟩ :=
    divLoop_spec a b hb hb0 (divFuel a) (Polynomial.divInit a) (divInit_inv a b ha) (le_refl _)
  refine ⟨Polynomial.ofVector r, I1_ofVector r, ?_, hdeg⟩
  intro fuel hfuel
  unfold Polynomial.div
  rw [hr fuel hfuel]

theorem mod_spec {T : Type} [Field T] [DecidableEq T] (a b : Polynomial T)
    (ha : a.I1) (hb : b.I1) (hb0 : 0 ≤ b.Degree) :
    ∃ q r : Polynomial T, q.I1 ∧ r.I1 ∧
      (∀ fuel, divFuel a ≤ fuel → Polynomial.div fuel a b = Outcome.done q) ∧
      (∀ fuel, divFuel a ≤ fuel → Polynomial.mod fuel a b = Outcome.done r) ∧
      toPoly a = toPoly q * toPoly b + toPoly r ∧
      (toPoly r).degree < (toPoly b).degree ∧ r.Degree < b.Degree := by
  obtain ⟨q, hq, hdiv, hdeg⟩ := div_spec a b ha hb hb0
  have hr : toPoly (a.sub (q.mul b)) = toPoly a - toPoly q * toPoly b := by
    rw [toPoly_sub, toPoly_mul]
  have hI : (a.sub (q.mul b)).I1 := I1_sub _ _
  refine ⟨q, a.sub (q.mul b), hq, hI, hdiv, ?_, ?_, ?_, ?_⟩
  · intro fuel hfuel
    unfold Polynomial.mod
    rw [hdiv fuel hfuel]
  · rw [hr]; ring
  · rw [hr]; exact hdeg
  · apply Degree_lt_of_degree_lt _ _ hI hb
    rw [hr]; exact hdeg

/-! ## The Euclidean algorithm over a field -/

theorem coef_eq_nil_of_toPoly_eq_zero {T : Type} [Semiring T] (p : Polynomial T) (hp : p.I1)
    (h : toPoly p = 0) : p = Polynomial.empty := by
  apply toPoly_inj p _ hp I1_empty
  rw [h, toPoly_empty]

theorem mod_eq_zero_of_dvd {T : Type} [Field T] [DecidableEq T] (a g : Polynomial T)
    (ha : a.I1) (hg : g.I1) (hg0 : 0 ≤ g.Degree) (hdvd : toPoly g ∣ toPoly a) :
    ∀ fuel, divFuel a ≤ fuel → Polynomial.mod fuel a g = Outcome.done Polynomial.empty := by
  obtain ⟨q, r, _, hr, _, hmod, heq, hdeg, _⟩ := mod_spec a g ha hg hg0
  have hdr : toPoly g ∣ toPoly r := by
    have h1 : toPoly g ∣ toPoly q * toPoly g := dvd_mul_left _ _
    rw [heq] at hdvd
    exact (dvd_add_right h1).1 hdvd
  have hr0 : toPoly r = 0 := Polynomial.eq_zero_of_dvd_of_degree_lt hdr hdeg
  have : r = Polynomial.empty := coef_eq_nil_of_toPoly_eq_zero r hr hr0
  intro fuel hfuel
  rw [hmod fuel hfuel, this]

theorem divFuel_le_of_Degree_le {T : Type} (p q : Polynomial T) (h : p.Degree ≤ q.Degree) :
    divFuel p ≤ divFuel q := by
  unfold divFuel
  omega

theorem gcdLoop_spec {T : Type} [Field T] [DecidableEq T] (N : Nat) :
    ∀ (m : Nat) (first second : Polynomial T), first.I1 → second.I1 →
      second.Degree.toNat ≤ m → divFuel first ≤ N → divFuel second ≤ N →
      (0 ≤ first.Degree ∨ 0 ≤ second.Degree) →
      ∃ f s : Polynomial T, f.I1 ∧ s.I1 ∧ s.Degree ≤ 0 ∧ (0 ≤ f.Degree ∨ 0 ≤ s.Degree) ∧
        divFuel f ≤ N ∧
        (∀ inner fuel, N ≤ inner → m ≤ fuel →
          Polynomial.gcdLoop inner fuel first second = Outcome.done (f, s)) ∧
        (∀ d : T[X], (d ∣ toPoly f ∧ d ∣ toPoly s) ↔ (d ∣ toPoly first ∧ d ∣ toPoly second)) := by
  intro m
  induction m with
  | zero =>
    intro first second h1 h2 hm hN1 _ hnz
    have hle : ¬ second.Degree > 0 := by omega
    refine ⟨first, second, h1, h2, by omega, hnz, hN1, ?_, fun d => Iff.rfl⟩
    intro inner fuel _ _
    rw [Polynomial.gcdLoop.eq_def]
    simp only [if_neg hle]
  | succ m ih =>
    intro first second h1 h2 hm hN1 hN2 hnz
    by_cases hgt : second.Degree > 0
    · obtain ⟨q, r, _, hr, _, hmod, heq, _, hdeg⟩ := mod_spec first second h1 h2 (by omega)
      have hN3 : divFuel r ≤ N :=
        le_trans (divFuel_le_of_Degree_le r second (by omega)) hN2
      obtain ⟨f, s, hf, hs, hs0, hnz', hNf, hrun, hdvd⟩ :=
        ih second r h2 hr (by omega) hN2 hN3 (Or.inl (by omega))
      refine ⟨f, s, hf, hs, hs0, hnz', hNf, ?_, ?_⟩
      · intro inner fuel hinner hfuel
        obtain ⟨k, rfl⟩ : ∃ k, fuel = k + 1 := ⟨fuel - 1, by omega⟩
        rw [Polynomial.gcdLoop.eq_def]
        simp only [if_pos hgt, hmod inner (le_trans hN1 hinner)]
        exact hrun inner k hinner (by omega)
      · intro d
        rw [hdvd d, heq]
        constructor
        · rintro ⟨hs', hr'⟩
          exact ⟨dvd_add (dvd_mul_of_dvd_right hs' _) hr', hs'⟩
        · rintro ⟨hf', hs'⟩
          exact ⟨hs', (dvd_add_right (dvd_mul_of_dvd_right hs' _)).1 hf'⟩
    · refine ⟨first, second, h1, h2, by omega, hnz, hN1, ?_, fun d => Iff.rfl⟩
      intro inner fuel _ _
      rw [Polynomial.gcdLoop.eq_def]
      simp only [if_neg hgt]

theorem ofScalar_zero {T : Type} [Zero T] [DecidableEq T] :
    (Polynomial.ofScalar (0 : T)) = Polynomial.empty := by
  simp [Polynomial.ofScalar]

theorem Degree_ofScalar {T : Type} [Zero T] [DecidableEq T] (c : T) (hc : c ≠ 0) :
    (Polynomial.ofScalar c).Degree = 0 := by
  simp [Polynomial.ofScalar, hc, Polynomial.set, Polynomial.empty, assign, Polynomial.Degree]

theorem gcd_spec {T : Type} [Field T] [DecidableEq T] (a b : Polynomial T)
    (ha : a.I1) (hb : b.I1) (hnz : 0 ≤ a.Degree ∨ 0 ≤ b.Degree) :
    ∃ g : Polynomial T, g.I1 ∧ 0 ≤ g.Degree ∧
      (∀ fuel, gcdFuel a b ≤ fuel → Polynomial.gcd fuel a b = Outcome.done g) ∧
      (toPoly g).Monic ∧
      (∀ d : T[X], d ∣ toPoly g ↔ (d ∣ toPoly a ∧ d ∣ toPoly b)) := by
  -- the operands after the swap
  obtain ⟨x, y, hstart, hx, hy, hxy, hNx, hNy, hyx, hsym⟩ :
      ∃ x y : Polynomial T,
        (if a.Degree < b.Degree then (b, a) else (a, b)) = (x, y) ∧ x.I1 ∧ y.I1 ∧
        (0 ≤ x.Degree ∨ 0 ≤ y.Degree) ∧ divFuel x ≤ gcdFuel a b ∧ divFuel y ≤ gcdFuel a b ∧
        y.Degree.toNat ≤ gcdFuel a b ∧
        (∀ d : T[X], (d ∣ toPoly x ∧ d ∣ toPoly y) ↔ (d ∣ toPoly a ∧ d ∣ toPoly b)) := by
    by_cases h : a.Degree < b.Degree
    · refine ⟨b, a, by rw [if_pos h], hb, ha, hnz.symm, le_max_right _ _, le_max_left _ _, ?_,
        fun d => and_comm⟩
      have : divFuel a ≤ gcdFuel a b := le_max_left _ _
      unfold divFuel at this
      omega
    · refine ⟨a, b, by rw [if_neg h], ha, hb, hnz, le_max_left _ _, le_max_right _ _, ?_,
        fun d => Iff.rfl⟩
      have : divFuel b ≤ gcdFuel a b := le_max_right _ _
      unfold divFuel at this
      omega
  obtain ⟨f, s, hf, hs, hs0, hnz', hNf, hrun, hdvd⟩ :=
    gcdLoop_spec (gcdFuel a b) (gcdFuel a b) x y hx hy hyx hNx hNy hxy
  by_cases hsz : s.coef = []
  · -- the last remainder is zero: `first` divided by its leading coefficient
    have hsD : s.Degree < 0 := (Degree_neg_iff s).2 hsz
    have hf0 : 0 ≤ f.Degree := by
      rcases hnz' with h | h
      · exact h
      · omega
    have hlc : f.get (toSizeT f.Degree) ≠ 0 := by
      rw [toSizeT_of_nonneg _ hf0]
      exact get_Degree_ne_zero f hf hf0
    have hcD := Degree_ofScalar _ hlc
    obtain ⟨q, hq, hdiv, hdeg⟩ :=
      div_spec f (Polynomial.ofScalar (f.get (toSizeT f.Degree))) hf (I1_ofScalar _)
        (by omega)
    rw [toPoly_ofScalar, Polynomial.degree_C hlc] at hdeg
    have hF : toPoly f = toPoly q * Polynomial.C (f.get (toSizeT f.Degree)) := by
      have : toPoly f - toPoly q * Polynomial.C (f.get (toSizeT f.Degree)) = 0 := by
        rw [← Polynomial.degree_eq_bot]
        exact Nat.WithBot.lt_zero_iff.1 hdeg
      exact sub_eq_zero.1 this
    have hF0 := toPoly_ne_zero_of_Degree_nonneg f hf hf0
    have hq0 : toPoly q ≠ 0 := by
      intro h0
      rw [h0, zero_mul] at hF
      exact hF0 hF
    have hunit : IsUnit (Polynomial.C (f.get (toSizeT f.Degree))) :=
      Polynomial.isUnit_C.2 (isUnit_iff_ne_zero.2 hlc)
    have hS0 : toPoly s = 0 := by simp [toPoly, toPolyL, hsz]
    refine ⟨q, hq, Degree_nonneg_of_toPoly_ne_zero q hq0, ?_, ?_, ?_⟩
    · intro fuel hfuel
      unfold Polynomial.gcd
      simp only [hstart, hrun fuel fuel hfuel hfuel]
      have hne : s.ne (Polynomial.ofScalar 0) = false := by
        simp [Polynomial.ne, ofScalar_zero, Polynomial.empty, hsz]
      rw [hne]
      simp only [Bool.false_eq_true, if_false]
      exact hdiv fuel (le_trans hNf hfuel)
    · have hl : (toPoly f).leadingCoeff = f.get (toSizeT f.Degree) :=
        leadingCoeff_toPoly f hf hf0
      have : (toPoly q).leadingCoeff * f.get (toSizeT f.Degree) = f.get (toSizeT f.Degree) := by
        rw [hF, Polynomial.leadingCoeff_mul, Polynomial.leadingCoeff_C] at hl
        exact hl
      unfold Polynomial.Monic
      exact mul_right_cancel₀ hlc (by rw [this, one_mul])
    · intro d
      rw [← hsym d, ← hdvd d, hS0, hF]
      constructor
      · intro h
        exact ⟨dvd_mul_of_dvd_left h _, dvd_zero _⟩
      · rintro ⟨h, _⟩
        exact (IsUnit.dvd_mul_right hunit).1 h
  · -- the last remainder is a constant that is not zero: the result is `1`
    have hsD : 0 ≤ s.Degree := by
      by_contra h
      exact hsz ((Degree_neg_iff s).1 (by omega))
    have hS0 := toPoly_ne_zero_of_Degree_nonneg s hs hsD
    have hSn : (toPoly s).natDegree = 0 := by
      have := natDegree_toPoly s hs hsD
      omega
    have hSu : IsUnit (toPoly s) := by
      rw [Polynomial.isUnit_iff_degree_eq_zero, Polynomial.degree_eq_natDegree hS0, hSn]
      rfl
    have h1 : toPoly (Polynomial.ofScalar (1 : T)) = 1 := by
      rw [toPoly_ofScalar, map_one]
    refine ⟨Polynomial.ofScalar 1, I1_ofScalar _, ?_, ?_, ?_, ?_⟩
    · rw [Degree_ofScalar _ one_ne_zero]
    · intro fuel hfuel
      unfold Polynomial.gcd
      simp only [hstart, hrun fuel fuel hfuel hfuel]
      have hne : s.ne (Polynomial.ofScalar 0) = true := by
        simp [Polynomial.ne, ofScalar_zero, Polynomial.empty, hsz]
      rw [hne]
      simp
    · rw [h1]
      exact Polynomial.monic_one
    · intro d
      rw [← hsym d, ← hdvd d, h1]
      constructor
      · intro h
        have hd : IsUnit d := isUnit_of_dvd_one h
        exact ⟨hd.dvd, hd.dvd⟩
      · rintro ⟨_, h⟩
        exact (isUnit_of_dvd_unit h hSu).dvd

theorem lead_eq_one_of_monic {T : Type} [Semiring T] (g : Polynomial T) (hg : g.I1)
    (hg0 : 0 ≤ g.Degree) (hm : (toPoly g).Monic) : g.get (toSizeT g.Degree) = 1 := by
  rw [← leadingCoeff_toPoly g hg hg0]
  exact hm

theorem sampleA_I1 : sampleA.I1 := by
  intro e he
  simp only [sampleA, List.mem_cons, List.mem_singleton] at he
  rcases he with rfl | rfl | h
  · norm_num
  · norm_num
  · simp at h

theorem sampleB_I1 : sampleB.I1 := by
  intro e he
  simp only [sampleB, List.mem_cons, List.mem_singleton] at he
  rcases he with rfl | rfl | h
  · norm_num
  · norm_num
  · simp at h

theorem sampleA_Degree : sampleA.Degree = 2 := by decide

theorem sampleB_Degree : sampleB.Degree = 1 := by decide

/-! ## The claims -/

/-- C1 (division law): over a field, for every polynomial `a` and every
polynomial `b` that is not the zero polynomial (`Degree(b) >= 0`), `a / b` and
`a % b` return polynomials `q` and `r` (as soon as the loop may run `Degree(a) + 1`
times) with `a == q * b + r` and `Degree(r) < Degree(b)`. -/
theorem division_law {T : Type} [Field T] [DecidableEq T] (a b : Polynomial T)
    (ha : a.I1) (hb : b.I1) (hb0 : 0 ≤ b.Degree) :
    ∃ q r : Polynomial T,
      (∀ fuel, divFuel a ≤ fuel →
        Polynomial.div fuel a b = Outcome.done q ∧ Polynomial.mod fuel a b = Outcome.done r) ∧
      a.eq ((q.mul b).add r) = true ∧ r.Degree < b.Degree := by
  obtain ⟨q, r, _, _, hdiv, hmod, heq, _, hdeg⟩ := mod_spec a b ha hb hb0
  refine ⟨q, r, fun fuel hfuel => ⟨hdiv fuel hfuel, hmod fuel hfuel⟩, ?_, hdeg⟩
  have : a = (q.mul b).add r := by
    apply toPoly_inj a _ ha (I1_add _ _)
    rw [toPoly_add, toPoly_mul, heq]
  simp only [Polynomial.eq, decide_eq_true_eq]
  exact congrArg Polynomial.coef this

/-- The division law at `a = x^2 - 1`, `b = 2x + 2` over the rationals. -/
theorem division_law_witness :
    sampleA.I1 ∧ sampleB.I1 ∧ 0 ≤ sampleB.Degree ∧
    ∃ q r : Polynomial ℚ,
      (∀ fuel, divFuel sampleA ≤ fuel →
        Polynomial.div fuel sampleA sampleB = Outcome.done q ∧
          Polynomial.mod fuel sampleA sampleB = Outcome.done r) ∧
      sampleA.eq ((q.mul sampleB).add r) = true ∧ r.Degree < sampleB.Degree :=
  ⟨sampleA_I1, sampleB_I1, by decide,
    division_law sampleA sampleB sampleA_I1 sampleB_I1 (by decide)⟩

/-- C2 (the gcd divides both operands): over a field, for all polynomials `a`
and `b` that are not both the zero polynomial, `(a , b)` returns a polynomial
`g`, and `a % g` and `b % g` both return the zero polynomial. -/
theorem gcd_divides_both {T : Type} [Field T] [DecidableEq T] (a b : Polynomial T)
    (ha : a.I1) (hb : b.I1) (hnz : 0 ≤ a.Degree ∨ 0 ≤ b.Degree) :
    ∃ g : Polynomial T,
      (∀ fuel, gcdFuel a b ≤ fuel → Polynomial.gcd fuel a b = Outcome.done g) ∧
      (∀ fuel, divFuel a ≤ fuel →
        Polynomial.mod fuel a g = Outcome.done (Polynomial.ofScalar 0)) ∧
      (∀ fuel, divFuel b ≤ fuel →
        Polynomial.mod fuel b g = Outcome.done (Polynomial.ofScalar 0)) := by
  obtain ⟨g, hg, hg0, hrun, _, hdvd⟩ := gcd_spec a b ha hb hnz
  have h := (hdvd (toPoly g)).1 (dvd_refl _)
  rw [ofScalar_zero]
  exact ⟨g, hrun, mod_eq_zero_of_dvd a g ha hg hg0 h.1, mod_eq_zero_of_dvd b g hb hg hg0 h.2⟩

/-- The gcd of `x^2 - 1` and `2x + 2` over the rationals divides both. -/
theorem gcd_divides_both_witness :
    sampleA.I1 ∧ sampleB.I1 ∧ (0 ≤ sampleA.Degree ∨ 0 ≤ sampleB.Degree) ∧
    ∃ g : Polynomial ℚ,
      (∀ fuel, gcdFuel sampleA sampleB ≤ fuel →
        Polynomial.gcd fuel sampleA sampleB = Outcome.done g) ∧
      (∀ fuel, divFuel sampleA ≤ fuel →
        Polynomial.mod fuel sampleA g = Outcome.done (Polynomial.ofScalar 0)) ∧
      (∀ fuel, divFuel sampleB ≤ fuel →
        Polynomial.mod fuel sampleB g = Outcome.done (Polynomial.ofScalar 0)) :=
  ⟨sampleA_I1, sampleB_I1, Or.inl (by decide),
    gcd_divides_both sampleA sampleB sampleA_I1 sampleB_I1 (Or.inl (by decide))⟩

/-- C3 (the gcd is monic): over a field, for all polynomials `a` and `b` that
are not both the zero polynomial, `(a , b)` returns a polynomial `g` that is not
the zero polynomial and whose leading coefficient `g[Degree(g)]` is `T(1)`. -/
theorem gcd_monic {T : Type} [Field T] [DecidableEq T] (a b : Polynomial T)
    (ha : a.I1) (hb : b.I1) (hnz : 0 ≤ a.Degree ∨ 0 ≤ b.Degree) :
    ∃ g : Polynomial T,
      (∀ fuel, gcdFuel a b ≤ fuel → Polynomial.gcd fuel a b = Outcome.done g) ∧
      g.ne (Polynomial.ofScalar 0) = true ∧ 0 ≤ g.Degree ∧
      g.get (toSizeT g.Degree) = 1 := by
  obtain ⟨g, hg, hg0, hrun, hmonic, _⟩ := gcd_spec a b ha hb hnz
  refine ⟨g, hrun, ?_, hg0, lead_eq_one_of_monic g hg hg0 hmonic⟩
  have hne : g.coef ≠ [] := fun h => by
    have := (Degree_neg_iff g).2 h
    omega
  simp [Polynomial.ne, ofScalar_zero, Polynomial.empty, hne]

/-- The gcd of `x^2 - 1` and `2x + 2` over the rationals is monic. -/
theorem gcd_monic_witness :
    sampleA.I1 ∧ sampleB.I1 ∧ (0 ≤ sampleA.Degree ∨ 0 ≤ sampleB.Degree) ∧
    ∃ g : Polynomial ℚ,
      (∀ fuel, gcdFuel sampleA sampleB ≤ fuel →
        Polynomial.gcd fuel sampleA sampleB = Outcome.done g) ∧
      g.ne (Polynomial.ofScalar 0) = true ∧ 0 ≤ g.Degree ∧
      g.get (toSizeT g.Degree) = 1 :=
  ⟨sampleA_I1, sampleB_I1, Or.inl (by decide),
    gcd_monic sampleA sampleB sampleA_I1 sampleB_I1 (Or.inl (by decide))⟩

/-- C4 (composition agrees with evaluation): over a commutative ring, for all
polynomials `a`, `b` and every scalar `x`, `(a & b)(x) == a(b(x))`. -/
theorem compose_eval {T : Type} [CommRing T] [DecidableEq T] (a b : Polynomial T) (x : T) :
    (a.compose b).eval x = a.eval (b.eval x) := by
  rw [← eval_toPoly, toPoly_compose, Polynomial.eval_comp, eval_toPoly, eval_toPoly]

/-- C5 (Horner evaluation): for every coefficient sequence `v = [c0, ..., cn]`
and every scalar `x`, the polynomial built from `v` evaluates at `x` to the sum
of `ci * x^i`; the polynomials built from the empty sequence, from an all-zero
sequence and from the scalar zero evaluate to zero. -/
theorem horner_correct {T : Type} [Ring T] [DecidableEq T] (v : List T) (x : T) :
    (Polynomial.ofVector v).eval x = ∑ i in Finset.range v.length, v.getD i 0 * x ^ i ∧
    (Polynomial.ofVector ([] : List T)).eval x = 0 ∧
    (∀ n : Nat, (Polynomial.ofVector (List.replicate n (0 : T))).eval x = 0) ∧
    (Polynomial.ofScalar (0 : T)).eval x = 0 := by
  have key : ∀ w : List T,
      (Polynomial.ofVector w).eval x = ∑ i in Finset.range w.length, w.getD i 0 * x ^ i := by
    intro w
    rw [← eval_toPoly, toPoly_ofVector, Polynomial.eval_finset_sum]
    simp only [Polynomial.eval_monomial]
  refine ⟨key v, ?_, ?_, ?_⟩
  · rw [key]; simp
  · intro n
    rw [← eval_toPoly, toPoly_ofVector_replicate, Polynomial.eval_zero]
  · rw [← eval_toPoly, toPoly_ofScalar, map_zero, Polynomial.eval_zero]

/-- C6 (distributivity): over a commutative ring, for all polynomials `a`, `b`,
`c`, `a * (b + c) == a * b + a * c`. -/
theorem mul_add_distrib {T : Type} [CommRing T] [DecidableEq T] (a b c : Polynomial T) :
    (a.mul (b.add c)).eq ((a.mul b).add (a.mul c)) = true := by
  have : a.mul (b.add c) = (a.mul b).add (a.mul c) := by
    apply toPoly_inj _ _ (I1_mul _ _) (I1_add _ _)
    rw [toPoly_mul, toPoly_add, toPoly_add, toPoly_mul, toPoly_mul, mul_add]
  simp only [Polynomial.eq, decide_eq_true_eq]
  exact congrArg Polynomial.coef this

/-- C7 (addition is associative and commutative): for all polynomials `a`,
`b`, `c`, `(a + b) + c == a + (b + c)` and `a + b == b + a`. -/
theorem add_assoc_comm {T : Type} [Ring T] [DecidableEq T] (a b c : Polynomial T) :
    ((a.add b).add c).eq (a.add (b.add c)) = true ∧ (a.add b).eq (b.add a) = true := by
  have h1 : (a.add b).add c = a.add (b.add c) := by
    apply toPoly_inj _ _ (I1_add _ _) (I1_add _ _)
    rw [toPoly_add, toPoly_add, toPoly_add, toPoly_add, add_assoc]
  have h2 : a.add b = b.add a := by
    apply toPoly_inj _ _ (I1_add _ _) (I1_add _ _)
    rw [toPoly_add, toPoly_add, add_comm]
  simp only [Polynomial.eq, decide_eq_true_eq]
  exact ⟨congrArg Polynomial.coef h1, congrArg Polynomial.coef h2⟩

theorem I1_foldl {T : Type} [Zero T] (F : Polynomial T → Nat → Polynomial T)
    (hF : ∀ acc i, acc.I1 → (F acc i).I1) :
    ∀ (l : List Nat) (p : Polynomial T), p.I1 → (l.foldl F p).I1 := by
  intro l
  induction l with
  | nil => intro p hp; exact hp
  | cons hd tl ih => intro p hp; exact ih (F p hd) (hF p hd hp)

theorem I1_compose {T : Type} [Zero T] [Add T] [Mul T] [DecidableEq T] (a b : Polynomial T) :
    (a.compose b).I1 := by
  unfold Polynomial.compose
  apply I1_foldl _ _ _ _ I1_empty
  intro acc i hacc
  split_ifs
  · exact I1_addAssign _ _
  · exact hacc

theorem I1_div {T : Type} [Zero T] [Add T] [Sub T] [Mul T] [Div T] [DecidableEq T]
    (a b : Polynomial T) (fuel : Nat) (q : Polynomial T)
    (h : Polynomial.div fuel a b = Outcome.done q) : q.I1 := by
  unfold Polynomial.div at h
  cases hl : Polynomial.divLoop b fuel (Polynomial.divInit a) with
  | done r =>
    rw [hl] at h
    simp only [Outcome.done.injEq] at h
    rw [← h]
    exact I1_ofVector r
  | outOfFuel => rw [hl] at h; simp at h
  | outOfRange => rw [hl] at h; simp at h

theorem I1_mod {T : Type} [Zero T] [Add T] [Sub T] [Mul T] [Div T] [DecidableEq T]
    (a b : Polynomial T) (fuel : Nat) (r : Polynomial T)
    (h : Polynomial.mod fuel a b = Outcome.done r) : r.I1 := by
  unfold Polynomial.mod at h
  cases hl : Polynomial.div fuel a b with
  | done q =>
    rw [hl] at h
    simp only [Outcome.done.injEq] at h
    rw [← h]
    exact I1_sub _ _
  | outOfFuel => rw [hl] at h; simp at h
  | outOfRange => rw [hl] at h; simp at h

theorem I1_gcd {T : Type} [Zero T] [One T] [Add T] [Sub T] [Mul T] [Div T] [DecidableEq T]
    (a b : Polynomial T) (fuel : Nat) (g : Polynomial T)
    (h : Polynomial.gcd fuel a b = Outcome.done g) : g.I1 := by
  unfold Polynomial.gcd at h
  simp only at h
  cases hl : Polynomial.gcdLoop fuel fuel
      (if a.Degree < b.Degree then (b, a) else (a, b)).1
      (if a.Degree < b.Degree then (b, a) else (a, b)).2 with
  | done fs =>
    obtain ⟨f, s⟩ := fs
    rw [hl] at h
    simp only at h
    split_ifs at h with hne
    · simp only [Outcome.done.injEq] at h
      rw [← h]
      exact I1_ofScalar _
    · exact I1_div _ _ _ _ h
  | outOfFuel => rw [hl] at h; simp at h
  | outOfRange => rw [hl] at h; simp at h

/-- C8 (invariant I1 is kept): the polynomial produced by each constructor
(from a sequence, from a scalar, from an iterator range) and by `+`, `-`, `*`,
`+=`, `-=`, `*=`, `&`, and every polynomial returned by `/`, `%` and the gcd,
has no map entry whose coefficient is zero. -/
theorem I1_kept {T : Type} [Zero T] [One T] [Add T] [Sub T] [Mul T] [Div T] [DecidableEq T]
    (a b : Polynomial T) (v : List T) (c : T) :
    (Polynomial.ofVector v).I1 ∧ (Polynomial.ofScalar c).I1 ∧ (Polynomial.ofIter v).I1 ∧
    (a.add b).I1 ∧ (a.sub b).I1 ∧ (a.mul b).I1 ∧
    (a.addAssign b).I1 ∧ (a.subAssign b).I1 ∧ (a.mulAssign b).I1 ∧
    (a.compose b).I1 ∧
    (∀ fuel q, Polynomial.div fuel a b = Outcome.done q → q.I1) ∧
    (∀ fuel r, Polynomial.mod fuel a b = Outcome.done r → r.I1) ∧
    (∀ fuel g, Polynomial.gcd fuel a b = Outcome.done g → g.I1) :=
  ⟨I1_ofVector v, I1_ofScalar c, I1_Delete_Zeros _, I1_add a b, I1_sub a b, I1_mul a b,
    I1_addAssign a b, I1_subAssign a b, I1_mul a b, I1_compose a b,
    fun fuel q h => I1_div a b fuel q h, fun fuel r h => I1_mod a b fuel r h,
    fun fuel g h => I1_gcd a b fuel g h⟩

/-- Over the integers `(x^2 - 1) / (x + 1)` returns `x - 1`, the remainder is
the zero polynomial and the gcd is `x + 1`; all three satisfy I1. -/
theorem I1_kept_witness :
    (Polynomial.div 2 sampleZA sampleZB = Outcome.done sampleZQ ∧ sampleZQ.I1) ∧
    (Polynomial.mod 2 sampleZA sampleZB = Outcome.done Polynomial.empty ∧
      (Polynomial.empty : Polynomial ℤ).I1) ∧
    (Polynomial.gcd 3 sampleZA sampleZB = Outcome.done sampleZB ∧ sampleZB.I1) :=
  ⟨⟨by decide, (I1_kept sampleZA sampleZB [] 0).2.2.2.2.2.2.2.2.2.2.1 2 sampleZQ (by decide)⟩,
    ⟨by decide,
      (I1_kept sampleZA sampleZB [] 0).2.2.2.2.2.2.2.2.2.2.2.1 2 Polynomial.empty (by decide)⟩,
    ⟨by decide,
      (I1_kept sampleZA sampleZB [] 0).2.2.2.2.2.2.2.2.2.2.2.2 3 sampleZB (by decide)⟩⟩

/-- C9 (equality is extensional): for all polynomials `a`, `b` satisfying I1,
`a == b` holds exactly when `a[e] == b[e]` for every exponent `e`, and `a != b`
is the negation of `a == b`. -/
theorem eq_extensional {T : Type} [Zero T] [DecidableEq T] (a b : Polynomial T)
    (ha : a.I1) (hb : b.I1) :
    (a.eq b = true ↔ ∀ e : Nat, a.get e = b.get e) ∧ a.ne b = !(a.eq b) := by
  constructor
  · constructor
    · intro h e
      simp only [Polynomial.eq, decide_eq_true_eq] at h
      simp only [Polynomial.get, h]
    · intro h
      simp only [Polynomial.eq, decide_eq_true_eq]
      exact congrArg Polynomial.coef (ext_get a b ha hb h)
  · simp only [Polynomial.ne, Polynomial.eq, decide_not]

/-- Extensional equality at `x^2 - 1` and `2x + 2` over the rationals. -/
theorem eq_extensional_witness :
    sampleA.I1 ∧ sampleB.I1 ∧
    ((sampleA.eq sampleB = true ↔ ∀ e : Nat, sampleA.get e = sampleB.get e) ∧
      sampleA.ne sampleB = !(sampleA.eq sampleB)) :=
  ⟨sampleA_I1, sampleB_I1, eq_extensional sampleA sampleB sampleA_I1 sampleB_I1⟩

theorem divStep_decreases {T : Type} [Field T] [DecidableEq T] (b : Polynomial T)
    (hb : b.I1) (hb0 : 0 ≤ b.Degree) (s : Polynomial.DivState T) (h1 : s.first.I1)
    (h2 : s.fd = s.first.Degree) (h3 : s.fd < (s.result.length : Int)) (hg : s.fd ≥ b.Degree) :
    ∃ s', Polynomial.divStep b s = some s' ∧ s'.first.Degree < s.first.Degree ∧
      s'.first.I1 ∧ s'.fd = s'.first.Degree ∧ s'.fd < (s'.result.length : Int) := by
  have hinv : DivInv (((Polynomial.ofVector s.result).mul b).add s.first) b s :=
    ⟨h1, h2, h3, by rw [toPoly_add, toPoly_mul]⟩
  obtain ⟨s', hstep, hs', hlt⟩ := divStep_spec _ b hb hb0 s hinv hg
  refine ⟨s', hstep, ?_, hs'.first_I1, hs'.fd_eq, hs'.fd_lt⟩
  rw [← hs'.fd_eq, ← h2]
  exact hlt

theorem find_filter_ne_zero {T : Type} [Zero T] [DecidableEq T] (k : Nat) :
    ∀ l : List (Nat × T), l.Pairwise (fun p q => p.1 < q.1) →
      (find k (l.filter (fun e => e.2 ≠ 0))).getD 0 = (find k l).getD 0 := by
  intro l
  induction l with
  | nil => intro _; rfl
  | cons hd tl ih =>
    intro hl
    obtain ⟨k', v'⟩ := hd
    have hl' := List.pairwise_cons.1 hl
    have ih' := ih hl'.2
    by_cases hv : v' = 0
    · have hf : List.filter (fun e : Nat × T => decide (e.2 ≠ 0)) ((k', v') :: tl)
          = List.filter (fun e : Nat × T => decide (e.2 ≠ 0)) tl := by
        rw [List.filter_cons]; simp [hv]
      rw [hf, ih']
      by_cases hk : k = k'
      · subst hk
        rw [find_none_of_lt k tl hl'.1]
        simp [find, hv]
      · simp [find, hk]
    · have hf : List.filter (fun e : Nat × T => decide (e.2 ≠ 0)) ((k', v') :: tl)
          = (k', v') :: List.filter (fun e : Nat × T => decide (e.2 ≠ 0)) tl := by
        rw [List.filter_cons]; simp [hv]
      rw [hf]
      by_cases hk : k = k'
      · simp [find, hk]
      · simp only [find, if_neg hk]
        exact ih'

theorem get_Delete_Zeros_any {T : Type} [Zero T] [DecidableEq T] (p : Polynomial T) (k : Nat) :
    p.Delete_Zeros.get k = p.get k := by
  rw [get_eq_getD, get_eq_getD]
  exact find_filter_ne_zero k p.coef p.ordered

theorem get_ofVector_any {T : Type} [Zero T] [DecidableEq T] (v : List T) (k : Nat) :
    (Polynomial.ofVector v).get k = v.getD k 0 := by
  unfold Polynomial.ofVector
  rw [get_Delete_Zeros_any, get_fill]
  by_cases h : k < v.length
  · have : 0 ≤ k ∧ k < 0 + v.length := by omega
    rw [if_pos this]
    rfl
  · have : ¬ (0 ≤ k ∧ k < 0 + v.length) := by omega
    rw [if_neg this, get_empty]
    rw [List.getD_eq_default]
    omega

theorem Degree_ofVector_spec {T : Type} [Zero T] [DecidableEq T] (v : List T) :
    (Polynomial.ofVector v).Degree < (v.length : Int) ∧
    (0 ≤ (Polynomial.ofVector v).Degree →
      v.getD (Polynomial.ofVector v).Degree.toNat 0 ≠ 0) ∧
    (∀ j : Nat, (Polynomial.ofVector v).Degree < (j : Int) → v.getD j 0 = 0) := by
  have hnz : 0 ≤ (Polynomial.ofVector v).Degree →
      v.getD (Polynomial.ofVector v).Degree.toNat 0 ≠ 0 := by
    intro h
    rw [← get_ofVector_any]
    exact get_Degree_ne_zero _ (I1_ofVector v) h
  refine ⟨?_, hnz, ?_⟩
  · by_contra hlt
    have h0 : 0 ≤ (Polynomial.ofVector v).Degree := by omega
    apply hnz h0
    rw [List.getD_eq_default]
    omega
  · intro j hj
    rw [← get_ofVector_any]
    exact get_eq_zero_of_Degree_lt _ j hj

theorem getD_append_replicate {T : Type} [Zero T] (v : List T) (k e : Nat) :
    (v ++ List.replicate k (0 : T)).getD e 0 = v.getD e 0 := by
  rw [List.getD_eq_getElem?_getD, List.getD_eq_getElem?_getD]
  by_cases h : e < v.length
  · rw [List.getElem?_append_left h]
  · rw [List.getElem?_append_right (by omega)]
    have hv : v[e]? = none := List.getElem?_eq_none (by omega)
    rw [hv]
    by_cases h2 : e - v.length < k
    · simp [h2]
    · simp [h2]

/-- C11 (long division terminates): over a field and for `b` not the zero
polynomial, the loop of `operator/` is entered with `first` satisfying I1,
`fd = first.Degree()` and `fd` a valid index bound of `result`; every iteration
from such a state with `fd >= other.Degree()` keeps these and leaves `first` with
a strictly smaller degree (`-1` when it becomes the zero polynomial); and `a / b`
returns a polynomial as soon as the loop may run `Degree(a) + 1` times. -/
theorem division_terminates {T : Type} [Field T] [DecidableEq T] (a b : Polynomial T)
    (ha : a.I1) (hb : b.I1) (hb0 : 0 ≤ b.Degree) :
    ((Polynomial.divInit a).first.I1 ∧
      (Polynomial.divInit a).fd = (Polynomial.divInit a).first.Degree ∧
      (Polynomial.divInit a).fd < ((Polynomial.divInit a).result.length : Int)) ∧
    (∀ s : Polynomial.DivState T, s.first.I1 → s.fd = s.first.Degree →
      s.fd < (s.result.length : Int) → s.fd ≥ b.Degree →
      ∃ s', Polynomial.divStep b s = some s' ∧ s'.first.Degree < s.first.Degree ∧
        s'.first.I1 ∧ s'.fd = s'.first.Degree ∧ s'.fd < (s'.result.length : Int)) ∧
    ∃ q : Polynomial T, ∀ fuel, divFuel a ≤ fuel → Polynomial.div fuel a b = Outcome.done q := by
  have hinit := divInit_inv a b ha
  obtain ⟨q, _, hq, _⟩ := div_spec a b ha hb hb0
  exact ⟨⟨hinit.first_I1, hinit.fd_eq, hinit.fd_lt⟩,
    fun s h1 h2 h3 hg => divStep_decreases b hb hb0 s h1 h2 h3 hg, q, hq⟩

/-- Termination of the division of `x^2 - 1` by `2x + 2` over the rationals. -/
theorem division_terminates_witness :
    sampleA.I1 ∧ sampleB.I1 ∧ 0 ≤ sampleB.Degree ∧
    (((Polynomial.divInit sampleA).first.I1 ∧
      (Polynomial.divInit sampleA).fd = (Polynomial.divInit sampleA).first.Degree ∧
      (Polynomial.divInit sampleA).fd < ((Polynomial.divInit sampleA).result.length : Int)) ∧
    (∀ s : Polynomial.DivState ℚ, s.first.I1 → s.fd = s.first.Degree →
      s.fd < (s.result.length : Int) → s.fd ≥ sampleB.Degree →
      ∃ s', Polynomial.divStep sampleB s = some s' ∧ s'.first.Degree < s.first.Degree ∧
        s'.first.I1 ∧ s'.fd = s'.first.Degree ∧ s'.fd < (s'.result.length : Int)) ∧
    ∃ q : Polynomial ℚ,
      ∀ fuel, divFuel sampleA ≤ fuel → Polynomial.div fuel sampleA sampleB = Outcome.done q) :=
  ⟨sampleA_I1, sampleB_I1, by decide,
    division_terminates sampleA sampleB sampleA_I1 sampleB_I1 (by decide)⟩

/-- C12 (coefficient lookup is total): for every coefficient sequence `v` and
every exponent `e`, `Polynomial(v)[e]` is `v[e]` when `e < length(v)` and the
zero of `T` otherwise. -/
theorem get_total {T : Type} [Zero T] [DecidableEq T] (v : List T) (e : Nat) :
    (Polynomial.ofVector v).get e = if h : e < v.length then v.get ⟨e, h⟩ else 0 := by
  rw [get_ofVector_any]
  split_ifs with h
  · rw [List.getD_eq_getElem _ _ h]
    rfl
  · rw [List.getD_eq_default]
    omega

/-- C13 (degree): for every coefficient sequence `v`, `Degree(Polynomial(v))` is
the largest index `i` with `v[i] != 0`, and `-1` when every entry of `v` is zero
(in particular when `v` is empty); for a scalar `c`, `Degree(Polynomial(c))` is
`0` when `c != 0` and `-1` when `c == 0`. -/
theorem Degree_correct {T : Type} [Zero T] [DecidableEq T] (v : List T) (c : T) :
    (∀ i : Nat, i < v.length → v.getD i 0 ≠ 0 → (∀ j : Nat, i < j → v.getD j 0 = 0) →
      (Polynomial.ofVector v).Degree = (i : Int)) ∧
    ((∀ j : Nat, v.getD j 0 = 0) → (Polynomial.ofVector v).Degree = -1) ∧
    (Polynomial.ofVector ([] : List T)).Degree = -1 ∧
    (c ≠ 0 → (Polynomial.ofScalar c).Degree = 0) ∧
    (Polynomial.ofScalar (0 : T)).Degree = -1 := by
  obtain ⟨_, hnz, hz⟩ := Degree_ofVector_spec v
  have hge := Degree_ge (Polynomial.ofVector v)
  refine ⟨?_, ?_, rfl, fun hc => Degree_ofScalar c hc, by rw [ofScalar_zero]; rfl⟩
  · intro i _ hi habove
    have h1 : ¬ (Polynomial.ofVector v).Degree < (i : Int) := fun h => hi (hz i h)
    have h2 : ¬ (i : Int) < (Polynomial.ofVector v).Degree := by
      intro h
      have h0 : 0 ≤ (Polynomial.ofVector v).Degree := by omega
      exact hnz h0 (habove _ (by omega))
    omega
  · intro hall
    by_contra hne
    have h0 : 0 ≤ (Polynomial.ofVector v).Degree := by omega
    exact hnz h0 (hall _)

/-- The degree of the polynomial built from `[1, 0, 2, 0]` over the integers is
`2`, that of the polynomial built from `[0, 0]` is `-1`, that of the scalar `5`
is `0`. -/
theorem Degree_correct_witness :
    (Polynomial.ofVector [(1 : ℤ), 0, 2, 0]).Degree = 2 ∧
    (Polynomial.ofVector [(0 : ℤ), 0]).Degree = -1 ∧
    (Polynomial.ofScalar (5 : ℤ)).Degree = 0 :=
  ⟨(Degree_correct [(1 : ℤ), 0, 2, 0] 5).1 2 (by decide) (by decide)
      (fun j hj => by
        match j, hj with
        | 3, _ => rfl
        | n + 4, _ => rfl),
    (Degree_correct [(0 : ℤ), 0] 5).2.1
      (fun j => by
        match j with
        | 0 => rfl
        | 1 => rfl
        | n + 2 => rfl),
    (Degree_correct [(1 : ℤ), 0, 2, 0] 5).2.2.2.1 (by decide)⟩

/-- C14 (trailing zeros): for every coefficient sequence `v` and every `k`, the
polynomial built from `v` followed by `k` zeros is `==` to the polynomial built
from `v`. -/
theorem trailing_zeros {T : Type} [Zero T] [DecidableEq T] (v : List T) (k : Nat) :
    (Polynomial.ofVector (v ++ List.replicate k (0 : T))).eq (Polynomial.ofVector v) = true := by
  have : Polynomial.ofVector (v ++ List.replicate k (0 : T)) = Polynomial.ofVector v := by
    apply ext_get _ _ (I1_ofVector _) (I1_ofVector _)
    intro e
    rw [get_ofVector_any, get_ofVector_any, getD_append_replicate]
  simp only [Polynomial.eq, decide_eq_true_eq]
  exact congrArg Polynomial.coef this

/-! ## Further claims: rendering and coefficient formulas -/

theorem ofVector_replicate_zero {T : Type} [Zero T] [DecidableEq T] (n : Nat) :
    Polynomial.ofVector (List.replicate n (0 : T)) = Polynomial.empty := by
  apply ext_get _ _ (I1_ofVector _) I1_empty
  intro e
  rw [get_ofVector_any, get_empty, List.getD_eq_getElem?_getD]
  by_cases h : e < n
  · simp [h]
  · simp [h]

/-- C15 (rendering of integer polynomials): the polynomial from `[0,0,1]` is
written as `x^2`, from `[5]` as `5`, from `[0,-1]` as `-x`, from `[]` and from
every all-zero sequence as `0`, and from `[1,2,0,-1]` as `-x^3+2*x+1`. -/
theorem render_cases :
    Polynomial.render (Polynomial.ofVector [(0 : ℤ), 0, 1]) = "x^2" ∧
    Polynomial.render (Polynomial.ofVector [(5 : ℤ)]) = "5" ∧
    Polynomial.render (Polynomial.ofVector [(0 : ℤ), -1]) = "-x" ∧
    Polynomial.render (Polynomial.ofVector ([] : List ℤ)) = "0" ∧
    (∀ n : Nat, Polynomial.render (Polynomial.ofVector (List.replicate n (0 : ℤ))) = "0") ∧
    Polynomial.render (Polynomial.ofVector [(1 : ℤ), 2, 0, -1]) = "-x^3+2*x+1" := by
  refine ⟨by decide, by decide, by decide, by decide, ?_, by decide⟩
  intro n
  rw [ofVector_replicate_zero]
  decide

/-- C16 (multiplication is convolution): for all polynomials `a`, `b` and every
exponent `k`, `(a * b)[k]` is the sum of `a[i] * b[k - i]` over `i` in `0..k`. -/
theorem mul_convolution {T : Type} [Ring T] [DecidableEq T] (a b : Polynomial T) (k : Nat) :
    (a.mul b).get k = ∑ i in Finset.range (k + 1), a.get i * b.get (k - i) := by
  rw [← coeff_toPoly, toPoly_mul, Polynomial.coeff_mul,
    Finset.Nat.sum_antidiagonal_eq_sum_range_succ (fun i j => (toPoly a).coeff i * (toPoly b).coeff j)]
  simp only [coeff_toPoly]

/-- C17 (addition and subtraction are coefficientwise): for all polynomials
`a`, `b` and every exponent `e`, `(a + b)[e] == a[e] + b[e]` and
`(a - b)[e] == a[e] - b[e]`. -/
theorem add_sub_coefficientwise {T : Type} [Ring T] [DecidableEq T] (a b : Polynomial T)
    (e : Nat) :
    (a.add b).get e = a.get e + b.get e ∧ (a.sub b).get e = a.get e - b.get e := by
  constructor
  · rw [← coeff_toPoly, toPoly_add, Polynomial.coeff_add, coeff_toPoly, coeff_toPoly]
  · rw [← coeff_toPoly, toPoly_sub, Polynomial.coeff_sub, coeff_toPoly, coeff_toPoly]

/-! ## Further claims: the gcd is greatest, exact division, integer division -/

theorem dvd_of_mod_eq_zero {T : Type} [Field T] [DecidableEq T] (a d : Polynomial T)
    (ha : a.I1) (hd : d.I1) (hd0 : 0 ≤ d.Degree)
    (h : Polynomial.mod (divFuel a) a d = Outcome.done (Polynomial.ofScalar 0)) :
    toPoly d ∣ toPoly a := by
  obtain ⟨q, r, _, _, _, hmod, heq, _, _⟩ := mod_spec a d ha hd hd0
  rw [hmod (divFuel a) (le_refl _)] at h
  simp only [Outcome.done.injEq] at h
  rw [heq, h, ofScalar_zero, toPoly_empty, add_zero]
  exact dvd_mul_left _ _

theorem gcd_eq_one_of_Degree_zero {T : Type} [Field T] [DecidableEq T] (g : Polynomial T)
    (hg : g.I1) (hg0 : g.Degree = 0) (hm : (toPoly g).Monic) : g = Polynomial.ofScalar 1 := by
  apply toPoly_inj g _ hg (I1_ofScalar _)
  rw [toPoly_ofScalar, map_one]
  apply Polynomial.eq_one_of_monic_natDegree_zero hm
  have := natDegree_toPoly g hg (by omega)
  omega

/-- C18 (the gcd is greatest): over a field, for `a`, `b` not both the zero
polynomial, `(a , b)` returns a polynomial `g` such that `g % d` is the zero
polynomial for every `d` that is not the zero polynomial with `a % d` and `b % d`
the zero polynomial; and when no polynomial of positive degree has `a % d` and
`b % d` both zero, `g` is `Polynomial(T(1))`. -/
theorem gcd_greatest {T : Type} [Field T] [DecidableEq T] (a b : Polynomial T)
    (ha : a.I1) (hb : b.I1) (hnz : 0 ≤ a.Degree ∨ 0 ≤ b.Degree) :
    ∃ g : Polynomial T,
      (∀ fuel, gcdFuel a b ≤ fuel → Polynomial.gcd fuel a b = Outcome.done g) ∧
      (∀ d : Polynomial T, d.I1 → 0 ≤ d.Degree →
        Polynomial.mod (divFuel a) a d = Outcome.done (Polynomial.ofScalar 0) →
        Polynomial.mod (divFuel b) b d = Outcome.done (Polynomial.ofScalar 0) →
        ∀ fuel, divFuel g ≤ fuel →
          Polynomial.mod fuel g d = Outcome.done (Polynomial.ofScalar 0)) ∧
      ((∀ d : Polynomial T, d.I1 → 0 < d.Degree →
          ¬ (Polynomial.mod (divFuel a) a d = Outcome.done (Polynomial.ofScalar 0) ∧
            Polynomial.mod (divFuel b) b d = Outcome.done (Polynomial.ofScalar 0))) →
        g = Polynomial.ofScalar 1) := by
  obtain ⟨g, hg, hg0, hrun, hmonic, hdvd⟩ := gcd_spec a b ha hb hnz
  refine ⟨g, hrun, ?_, ?_⟩
  · intro d hd hd0 hda hdb
    have h := (hdvd (toPoly d)).2
      ⟨dvd_of_mod_eq_zero a d ha hd hd0 hda, dvd_of_mod_eq_zero b d hb hd hd0 hdb⟩
    rw [ofScalar_zero]
    exact mod_eq_zero_of_dvd g d hg hd hd0 h
  · intro hcop
    have hself := (hdvd (toPoly g)).1 (dvd_refl _)
    have hzero : g.Degree = 0 := by
      by_contra hne
      have hpos : 0 < g.Degree := by omega
      apply hcop g hg hpos
      rw [ofScalar_zero]
      exact ⟨mod_eq_zero_of_dvd a g ha hg hg0 hself.1 _ (le_refl _),
        mod_eq_zero_of_dvd b g hb hg hg0 hself.2 _ (le_refl _)⟩
    exact gcd_eq_one_of_Degree_zero g hg hzero hmonic

/-- Over the rationals the common divisor `2x + 2` of `x^2 - 1` and `2x + 2`
divides their gcd. -/
theorem gcd_greatest_witness :
    sampleA.I1 ∧ sampleB.I1 ∧ (0 ≤ sampleA.Degree ∨ 0 ≤ sampleB.Degree) ∧
    ∃ g : Polynomial ℚ,
      Polynomial.gcd (gcdFuel sampleA sampleB) sampleA sampleB = Outcome.done g ∧
      Polynomial.mod (divFuel g) g sampleB = Outcome.done (Polynomial.ofScalar 0) := by
  refine ⟨sampleA_I1, sampleB_I1, Or.inl (by decide), ?_⟩
  obtain ⟨g, hrun, hgreat, _⟩ :=
    gcd_greatest sampleA sampleB sampleA_I1 sampleB_I1 (Or.inl (by decide))
  exact ⟨g, hrun _ (le_refl _),
    hgreat sampleB sampleB_I1 (by decide) (by decide!) (by decide!) _ (le_refl _)⟩

/-- C19 (division undoes multiplication): over a field, for every polynomial
`a` and every `b` that is not the zero polynomial, `(a * b) / b` returns `a` and
`(a * b) % b` returns the zero polynomial. -/
theorem div_mul_cancel {T : Type} [Field T] [DecidableEq T] (a b : Polynomial T)
    (ha : a.I1) (hb : b.I1) (hb0 : 0 ≤ b.Degree) :
    ∀ fuel, divFuel (a.mul b) ≤ fuel →
      Polynomial.div fuel (a.mul b) b = Outcome.done a ∧
      Polynomial.mod fuel (a.mul b) b = Outcome.done (Polynomial.ofScalar 0) := by
  obtain ⟨q, hq, hdiv, hdeg⟩ := div_spec (a.mul b) b (I1_mul a b) hb hb0
  have hB := toPoly_ne_zero_of_Degree_nonneg b hb hb0
  have hqa : q = a := by
    apply toPoly_inj q a hq ha
    by_contra hne
    have hsub : toPoly a - toPoly q ≠ 0 := fun h => hne (sub_eq_zero.1 h).symm
    rw [toPoly_mul, ← sub_mul, Polynomial.degree_mul] at hdeg
    have h1 : (0 : WithBot ℕ) ≤ (toPoly a - toPoly q).degree :=
      Polynomial.zero_le_degree_iff.2 hsub
    have h2 : (toPoly b).degree ≤ (toPoly a - toPoly q).degree + (toPoly b).degree := by
      calc (toPoly b).degree = 0 + (toPoly b).degree := (zero_add _).symm
        _ ≤ (toPoly a - toPoly q).degree + (toPoly b).degree := add_le_add_right h1 _
    exact absurd hdeg (not_lt.2 h2)
  intro fuel hfuel
  refine ⟨by rw [hdiv fuel hfuel, hqa], ?_⟩
  rw [ofScalar_zero]
  apply mod_eq_zero_of_dvd (a.mul b) b (I1_mul a b) hb hb0 _ fuel hfuel
  rw [toPoly_mul]
  exact dvd_mul_left _ _

/-- Division undoes multiplication at `a = x^2 - 1`, `b = 2x + 2` over the
rationals. -/
theorem div_mul_cancel_witness :
    sampleA.I1 ∧ sampleB.I1 ∧ 0 ≤ sampleB.Degree ∧
    ∀ fuel, divFuel (sampleA.mul sampleB) ≤ fuel →
      Polynomial.div fuel (sampleA.mul sampleB) sampleB = Outcome.done sampleA ∧
      Polynomial.mod fuel (sampleA.mul sampleB) sampleB =
        Outcome.done (Polynomial.ofScalar 0) :=
  ⟨sampleA_I1, sampleB_I1, by decide,
    div_mul_cancel sampleA sampleB sampleA_I1 sampleB_I1 (by decide)⟩

/-- C20 (no progress with truncating integer division): for `a` built from
`[0, 1]` and `b` built from `[0, 2]` over the integers with truncating division,
the loop of `operator/` is entered, one iteration computes `t = 1 / 2 = 0` and
leaves `first`, `result` and `fd` as they were, with `fd >= other.Degree()` still
true; so no bound on the number of iterations lets `a / b` return. -/
theorem int_division_no_progress :
    (Polynomial.divInit sampleX).fd ≥ sampleTwoX.Degree ∧
    @Polynomial.divT ℤ _ truncDiv sampleTwoX (Polynomial.divInit sampleX) = 0 ∧
    @Polynomial.divStep ℤ _ _ _ _ truncDiv _ sampleTwoX (Polynomial.divInit sampleX) =
      some (Polynomial.divInit sampleX) ∧
    (Polynomial.divInit sampleX).first.Degree = 1 ∧
    ∀ fuel, @Polynomial.div ℤ _ _ _ _ truncDiv _ fuel sampleX sampleTwoX =
      Outcome.outOfFuel := by
  have hguard : (Polynomial.divInit sampleX).fd ≥ sampleTwoX.Degree := by decide
  have hstep : @Polynomial.divStep ℤ _ _ _ _ truncDiv _ sampleTwoX
      (Polynomial.divInit sampleX) = some (Polynomial.divInit sampleX) := by decide
  have hloop : ∀ fuel, @Polynomial.divLoop ℤ _ _ _ _ truncDiv _ sampleTwoX fuel
      (Polynomial.divInit sampleX) = Outcome.outOfFuel := by
    intro fuel
    induction fuel with
    | zero =>
      rw [@Polynomial.divLoop.eq_def ℤ _ _ _ _ truncDiv _]
      simp only [if_pos hguard]
    | succ n ih =>
      rw [@Polynomial.divLoop.eq_def ℤ _ _ _ _ truncDiv _]
      simp only [if_pos hguard, hstep]
      exact ih
  refine ⟨hguard, by decide, hstep, by decide, ?_⟩
  intro fuel
  unfold Polynomial.div
  rw [hloop fuel]
end SparsePoly
